import Mathlib

/-!
Shallow embedding of `har2document` (`src/har2document/__init__.py`): the
document-building pipeline (timestamp parsing, query-string decomposition,
content-body normalization, string masking) and the component-based Markdown
renderer, together with proofs about the properties of that pipeline.

Python standard-library collaborators that the source calls are modelled
faithfully where their behavior matters to the program: `json.loads` and
`json.dumps(..., indent=4, ensure_ascii=False)` (the JSON model covers the
integer numerals; float literals and `\uXXXX` escapes in the surrogate range
are outside the model), `str.replace`, `dict` construction (last value wins,
first occurrence fixes the position), `urllib.parse.unquote_plus`,
`datetime.strptime` for the two timestamp formats, and `str.join`.
-/

/-! ## Character helpers -/

/-- JSON whitespace characters recognized by the scanner (space, TAB, LF, CR). -/
def isWsChar (c : Char) : Bool :=
  c = ' ' || c = '\x09' || c = '\x0a' || c = '\x0d'

/-- ASCII decimal digit test, phrased on code points for easy arithmetic. -/
def isDigitChar (c : Char) : Bool :=
  48 ≤ c.toNat && c.toNat ≤ 57

/-- Lower-case hexadecimal digit for `n < 16`, as `json.dumps` emits. -/
def hexDig (n : Nat) : Char :=
  if n < 10 then Char.ofNat (48 + n) else Char.ofNat (87 + n)

/-- Value of a hexadecimal digit, upper or lower case, as `json.loads` accepts. -/
def hexVal (c : Char) : Option Nat :=
  if 48 ≤ c.toNat && c.toNat ≤ 57 then some (c.toNat - 48)
  else if 97 ≤ c.toNat && c.toNat ≤ 102 then some (c.toNat - 87)
  else if 65 ≤ c.toNat && c.toNat ≤ 70 then some (c.toNat - 55)
  else none

/-! ## The JSON value model -/

mutual

/-- Model of a value produced by `json.loads`: numbers cover the integer
numerals, strings are lists of unicode scalar values, objects keep the
key order produced by Python `dict` construction. Array elements and object
members are mutual inductives so that the printer and the scanner recurse
structurally. -/
inductive Json where
  | null
  | bool (b : Bool)
  | num (n : Int)
  | str (s : List Char)
  | arr (xs : JsonElems)
  | obj (ms : JsonMembers)

/-- The elements of a JSON array. -/
inductive JsonElems where
  | nil
  | cons (x : Json) (xs : JsonElems)

/-- The members of a JSON object, in key order. -/
inductive JsonMembers where
  | nil
  | cons (k : List Char) (v : Json) (ms : JsonMembers)

end

/-! ## The pretty-printer, `json.dumps(v, indent=4, ensure_ascii=False)` -/

/-- Indentation prefix at nesting level `lvl`: `4 * lvl` spaces. -/
def jIndent (lvl : Nat) : List Char := List.replicate (4 * lvl) ' '

/-- Per-character escaping of `json.dumps` with `ensure_ascii=False`: quote,
backslash and the five short control escapes get two-character forms, the
remaining control characters get `\u00xx`, everything else is literal. -/
def escCharJ (c : Char) : List Char :=
  if c = '"' then ['\\', '"']
  else if c = '\\' then ['\\', '\\']
  else if c = '\x08' then ['\\', 'b']
  else if c = '\x09' then ['\\', 't']
  else if c = '\x0a' then ['\\', 'n']
  else if c = '\x0c' then ['\\', 'f']
  else if c = '\x0d' then ['\\', 'r']
  else if c.toNat < 32 then ['\\', 'u', '0', '0', hexDig (c.toNat / 16), hexDig (c.toNat % 16)]
  else [c]

/-- String-body escaping: each character in turn. -/
def escStringJ : List Char → List Char
  | [] => []
  | c :: cs => escCharJ c ++ escStringJ cs

/-- Digit accumulator: peel base-10 digits of `n` onto `acc`, most
significant ending first; `fuel ≥ n` makes the zero-fuel case unreachable. -/
def printNatAux : Nat → Nat → List Char → List Char
  | 0, _, acc => acc
  | fuel + 1, n, acc =>
    if n = 0 then acc else printNatAux fuel (n / 10) (Char.ofNat (48 + n % 10) :: acc)

/-- Decimal digits of a natural number, most significant first. -/
def printNat (n : Nat) : List Char :=
  if n = 0 then ['0'] else printNatAux n n []

/-- Decimal rendering of an integer. -/
def printInt (n : Int) : List Char :=
  if n < 0 then '-' :: printNat n.natAbs else printNat n.natAbs

/-- The `"key": ` prefix of an object member. -/
def printKey (k : List Char) : List Char :=
  '"' :: (escStringJ k ++ ['"', ':', ' '])

mutual

/-- Rendering of a JSON value at nesting level `lvl`, exactly as
`json.dumps(v, indent=4, ensure_ascii=False)` lays it out: empty containers
are compact, non-empty containers put every item on its own indented line. -/
def printJson : Json → Nat → List Char
  | .null, _ => ['n', 'u', 'l', 'l']
  | .bool true, _ => ['t', 'r', 'u', 'e']
  | .bool false, _ => ['f', 'a', 'l', 's', 'e']
  | .num n, _ => printInt n
  | .str s, _ => '"' :: (escStringJ s ++ ['"'])
  | .arr .nil, _ => ['[', ']']
  | .arr (.cons x xs), lvl =>
      '[' :: '\x0a' :: (jIndent (lvl + 1) ++ printJson x (lvl + 1) ++ printItems xs (lvl + 1)
        ++ '\x0a' :: (jIndent lvl ++ [']']))
  | .obj .nil, _ => ['\x7b', '\x7d']
  | .obj (.cons k v ms), lvl =>
      '\x7b' :: '\x0a' :: (jIndent (lvl + 1) ++ printKey k ++ printJson v (lvl + 1)
        ++ printMembersTail ms (lvl + 1) ++ '\x0a' :: (jIndent lvl ++ ['\x7d']))

/-- Second and later array items, each preceded by a comma and a newline. -/
def printItems : JsonElems → Nat → List Char
  | .nil, _ => []
  | .cons x xs, lvl => ',' :: '\x0a' :: (jIndent lvl ++ printJson x lvl ++ printItems xs lvl)

/-- Second and later object members, each preceded by a comma and a newline. -/
def printMembersTail : JsonMembers → Nat → List Char
  | .nil, _ => []
  | .cons k v ms, lvl =>
      ',' :: '\x0a' :: (jIndent lvl ++ printKey k ++ printJson v lvl ++ printMembersTail ms lvl)

end

/-! ## The scanner, `json.loads` -/

/-- Drop leading JSON whitespace. -/
def skipWs : List Char → List Char
  | [] => []
  | c :: cs => if isWsChar c then skipWs cs else c :: cs

/-- Require the given literal characters at the head of the input. -/
def expectChars : List Char → List Char → Option (List Char)
  | [], cs => some cs
  | _ :: _, [] => none
  | e :: es, c :: cs => if c = e then expectChars es cs else none

/-- Inverse of a short escape, per the scanner's backslash table. -/
def unescChar (c : Char) : Option Char :=
  if c = '"' then some '"'
  else if c = '\\' then some '\\'
  else if c = '/' then some '/'
  else if c = 'b' then some '\x08'
  else if c = 'f' then some '\x0c'
  else if c = 'n' then some '\x0a'
  else if c = 'r' then some '\x0d'
  else if c = 't' then some '\x09'
  else none

mutual

/-- Body of a JSON string after the opening quote: literal characters up to the
closing quote, backslash escapes, control characters rejected as the Python
scanner does. -/
def parseStringBody : List Char → Option (List Char × List Char)
  | [] => none
  | c :: cs =>
    if c = '"' then some ([], cs)
    else if c = '\\' then parseEscape cs
    else if c.toNat < 32 then none
    else (parseStringBody cs).map (fun p => (c :: p.1, p.2))

/-- The tail of a string after a backslash: a short escape or `\uXXXX`
(outside the surrogate range, a model restriction). -/
def parseEscape : List Char → Option (List Char × List Char)
  | 'u' :: h1 :: h2 :: h3 :: h4 :: cs2 =>
    match hexVal h1, hexVal h2, hexVal h3, hexVal h4 with
    | some a, some b, some c2, some d =>
      if ((a * 16 + b) * 16 + c2) * 16 + d < 0xd800 ∨
          0xdfff < ((a * 16 + b) * 16 + c2) * 16 + d then
        (parseStringBody cs2).map
          (fun p => (Char.ofNat (((a * 16 + b) * 16 + c2) * 16 + d) :: p.1, p.2))
      else none
    | _, _, _, _ => none
  | e :: cs1 =>
    match unescChar e with
    | some c2 => (parseStringBody cs1).map (fun p => (c2 :: p.1, p.2))
    | none => none
  | [] => none

end

/-- Numeric value of a run of decimal digit characters. -/
def digitsVal (ds : List Char) : Nat :=
  ds.foldl (fun a c => 10 * a + (c.toNat - 48)) 0

/-- An unsigned integer numeral: digits without a redundant leading zero, not
followed by `.`/`e`/`E` (float numerals are outside the model). -/
def parseUInt (cs : List Char) : Option (Nat × List Char) :=
  match cs with
  | [] => none
  | c :: rest =>
    if isDigitChar c then
      if c = '0' ∧ 1 < (List.takeWhile isDigitChar (c :: rest)).length then none
      else
        match List.dropWhile isDigitChar (c :: rest) with
        | [] => some (digitsVal (List.takeWhile isDigitChar (c :: rest)), [])
        | d :: ds =>
          if d = '.' ∨ d = 'e' ∨ d = 'E' then none
          else some (digitsVal (List.takeWhile isDigitChar (c :: rest)), d :: ds)
    else none

/-- A signed integer numeral. -/
def parseNumber (cs : List Char) : Option (Int × List Char) :=
  match cs with
  | [] => none
  | c :: rest =>
    if c = '-' then (parseUInt rest).map (fun p => (-(p.1 : Int), p.2))
    else (parseUInt (c :: rest)).map (fun p => ((p.1 : Int), p.2))

/-- Model of Python `dict` insertion: an existing key keeps its position and
takes the new value; a new key is appended at the end. -/
def odInsert {κ α : Type} [DecidableEq κ] (d : List (κ × α)) (k : κ) (v : α) : List (κ × α) :=
  if d.any (fun p => p.1 = k) then d.map (fun p => if p.1 = k then (k, v) else p)
  else d ++ [(k, v)]

/-- Model of Python `dict` construction from a pair sequence: repeated
insertion into an initially empty dict. -/
def odFold {κ α : Type} [DecidableEq κ] (l : List (κ × α)) : List (κ × α) :=
  l.foldl (fun a p => odInsert a p.1 p.2) []

/-- The keys of an object member list, in order. -/
def jmKeys : JsonMembers → List (List Char)
  | .nil => []
  | .cons k _ ms => k :: jmKeys ms

/-- Does a member list carry this key. -/
def jmHasKey : JsonMembers → List Char → Bool
  | .nil, _ => false
  | .cons k0 _ ms, k => k0 = k || jmHasKey ms k

/-- Replace the value at every occurrence of a key. -/
def jmSetAll : JsonMembers → List Char → Json → JsonMembers
  | .nil, _, _ => .nil
  | .cons k0 v0 ms, k, v =>
    if k0 = k then .cons k0 v (jmSetAll ms k v) else .cons k0 v0 (jmSetAll ms k v)

/-- Concatenation of member lists. -/
def jmAppend : JsonMembers → JsonMembers → JsonMembers
  | .nil, t => t
  | .cons k v ms, t => .cons k v (jmAppend ms t)

/-- Python `dict` insertion on object members: an existing key keeps its
position and takes the new value, a new key is appended. -/
def jmInsert (ms : JsonMembers) (k : List Char) (v : Json) : JsonMembers :=
  if jmHasKey ms k then jmSetAll ms k v else jmAppend ms (.cons k v .nil)

/-- Left fold of `jmInsert` over parsed members, accumulator first. -/
def jmFoldInto : JsonMembers → JsonMembers → JsonMembers
  | acc, .nil => acc
  | acc, .cons k v ms => jmFoldInto (jmInsert acc k v) ms

/-- Python `dict` construction from the parsed member sequence: duplicate
keys collapse, the last value wins, the first occurrence fixes the position. -/
def jmFold (ms : JsonMembers) : JsonMembers := jmFoldInto .nil ms

mutual

/-- One JSON value (fuel-bounded recursion): skip whitespace, dispatch on the
first character. Objects are built with `odFold`, matching the `dict` the
Python scanner builds (duplicate keys collapse, last value wins). -/
def parseValue : Nat → List Char → Option (Json × List Char)
  | 0, _ => none
  | fuel + 1, cs =>
    match skipWs cs with
    | [] => none
    | c :: rest =>
      if c = 'n' then (expectChars ['u', 'l', 'l'] rest).map (fun r => (Json.null, r))
      else if c = 't' then (expectChars ['r', 'u', 'e'] rest).map (fun r => (Json.bool true, r))
      else if c = 'f' then
        (expectChars ['a', 'l', 's', 'e'] rest).map (fun r => (Json.bool false, r))
      else if c = '"' then (parseStringBody rest).map (fun p => (Json.str p.1, p.2))
      else if c = '[' then
        match skipWs rest with
        | [] => none
        | d :: ds =>
          if d = ']' then some (Json.arr .nil, ds)
          else (parseElems fuel (d :: ds)).map (fun p => (Json.arr p.1, p.2))
      else if c = '\x7b' then
        match skipWs rest with
        | [] => none
        | d :: ds =>
          if d = '\x7d' then some (Json.obj .nil, ds)
          else (parseMembers fuel (d :: ds)).map (fun p => (Json.obj (jmFold p.1), p.2))
      else if c = '-' ∨ isDigitChar c then
        (parseNumber (c :: rest)).map (fun p => (Json.num p.1, p.2))
      else none

/-- One or more comma-separated array elements, then the closing bracket. -/
def parseElems : Nat → List Char → Option (JsonElems × List Char)
  | 0, _ => none
  | fuel + 1, cs =>
    match parseValue fuel cs with
    | none => none
    | some (x, r) =>
      match skipWs r with
      | [] => none
      | d :: ds =>
        if d = ',' then (parseElems fuel ds).map (fun p => (JsonElems.cons x p.1, p.2))
        else if d = ']' then some (JsonElems.cons x .nil, ds)
        else none

/-- One or more comma-separated `"key": value` members, then the closing brace. -/
def parseMembers : Nat → List Char → Option (JsonMembers × List Char)
  | 0, _ => none
  | fuel + 1, cs =>
    match skipWs cs with
    | [] => none
    | c :: rest =>
      if c = '"' then
        match parseStringBody rest with
        | none => none
        | some (k, cs2) =>
          match skipWs cs2 with
          | [] => none
          | d :: ds =>
            if d = ':' then
              match parseValue fuel ds with
              | none => none
              | some (v, cs4) =>
                match skipWs cs4 with
                | [] => none
                | e :: es =>
                  if e = ',' then
                    (parseMembers fuel es).map (fun p => (JsonMembers.cons k v p.1, p.2))
                  else if e = '\x7d' then some (JsonMembers.cons k v .nil, es)
                  else none
            else none
      else none

end

/-- Model of `json.loads`: parse one value, then require that only whitespace
remains (the Python scanner raises `Extra data` otherwise). -/
def json_loads (t : String) : Option Json :=
  match parseValue (t.data.length + 1) t.data with
  | none => none
  | some (v, rest) => if skipWs rest = [] then some v else none

/-- Model of `json.dumps(v, indent=4, ensure_ascii=False)`. -/
def json_dumps (v : Json) : String := String.mk (printJson v 0)

/-! ## Python `str.replace`, `str.join`, `unquote_plus` -/

/-- Replacement scan of `str.replace` for a non-empty pattern `o1 :: orest`:
left to right, every non-overlapping occurrence. The fuel starts at the
length of the scanned text, so the zero-fuel case is unreachable. -/
def replaceFrom (o1 : Char) (orest new : List Char) : Nat → List Char → List Char
  | _, [] => []
  | 0, l => l
  | fuel + 1, c :: rest =>
    if c = o1 ∧ List.isPrefixOf orest rest then
      new ++ replaceFrom o1 orest new fuel (rest.drop orest.length)
    else c :: replaceFrom o1 orest new fuel rest

/-- Empty-pattern case of `str.replace`: the replacement goes before every
character and once at the end. -/
def interleaveNew (new : List Char) : List Char → List Char
  | [] => new
  | c :: cs => new ++ c :: interleaveNew new cs

/-- Model of Python `str.replace(old, new)` (all occurrences, empty pattern
included). -/
def pyReplace (s old new : String) : String :=
  match old.data with
  | [] => String.mk (interleaveNew new.data s.data)
  | o1 :: orest => String.mk (replaceFrom o1 orest new.data s.data.length s.data)

/-- Model of Python `sep.join(pieces)`: the pieces concatenated with `sep`
between consecutive pieces, nothing before the first or after the last. -/
def pyJoin (sep : String) : List String → String
  | [] => ""
  | b :: bs => bs.foldl (fun acc s => acc ++ sep ++ s) b

/-- UTF-8 bytes of one unicode scalar value. -/
def charUtf8 (c : Char) : List Nat :=
  if c.toNat < 0x80 then [c.toNat]
  else if c.toNat < 0x800 then [0xc0 + c.toNat / 64, 0x80 + c.toNat % 64]
  else if c.toNat < 0x10000 then
    [0xe0 + c.toNat / 4096, 0x80 + c.toNat / 64 % 64, 0x80 + c.toNat % 64]
  else
    [0xf0 + c.toNat / 262144, 0x80 + c.toNat / 4096 % 64, 0x80 + c.toNat / 64 % 64,
      0x80 + c.toNat % 64]

/-- Percent-decoding to a byte sequence: `%XX` with two hex digits becomes one
byte, anything else contributes its UTF-8 bytes (an invalid `%` stays
literal, as `unquote` leaves it). -/
def pctBytes : Nat → List Char → List Nat
  | _, [] => []
  | 0, _ => []
  | fuel + 1, '%' :: h1 :: h2 :: cs2 =>
    match hexVal h1, hexVal h2 with
    | some a, some b => (a * 16 + b) :: pctBytes fuel cs2
    | _, _ => charUtf8 '%' ++ pctBytes fuel (h1 :: h2 :: cs2)
  | fuel + 1, c :: cs => charUtf8 c ++ pctBytes fuel cs

/-- A UTF-8 continuation byte. -/
def isCont (b : Nat) : Bool := 0x80 ≤ b && b ≤ 0xbf

/-- Allowed second byte after a three-byte lead (excludes overlong forms and
surrogates). -/
def cont3ok (b b2 : Nat) : Bool :=
  if b = 0xe0 then 0xa0 ≤ b2 && b2 ≤ 0xbf
  else if b = 0xed then 0x80 ≤ b2 && b2 ≤ 0x9f
  else isCont b2

/-- Allowed second byte after a four-byte lead (excludes overlong forms and
code points past U+10FFFF). -/
def cont4ok (b b2 : Nat) : Bool :=
  if b = 0xf0 then 0x90 ≤ b2 && b2 ≤ 0xbf
  else if b = 0xf4 then 0x80 ≤ b2 && b2 ≤ 0x8f
  else isCont b2

/-- UTF-8 decoding with U+FFFD replacement for invalid input, the
`errors="replace"` behavior of `bytes.decode`: a valid sequence decodes, an
invalid or truncated one is consumed up to its longest valid prefix and
yields one replacement character. -/
def utf8Decode : Nat → List Nat → List Char
  | _, [] => []
  | 0, _ => []
  | fuel + 1, b :: bs =>
    if b < 0x80 then Char.ofNat b :: utf8Decode fuel bs
    else if 0xc2 ≤ b ∧ b ≤ 0xdf then
      match bs with
      | b2 :: bs2 =>
        if isCont b2 then Char.ofNat ((b - 0xc0) * 64 + (b2 - 0x80)) :: utf8Decode fuel bs2
        else '�' :: utf8Decode fuel (b2 :: bs2)
      | [] => ['�']
    else if 0xe0 ≤ b ∧ b ≤ 0xef then
      match bs with
      | b2 :: b3 :: bs2 =>
        if cont3ok b b2 ∧ isCont b3 then
          Char.ofNat ((b - 0xe0) * 4096 + (b2 - 0x80) * 64 + (b3 - 0x80)) :: utf8Decode fuel bs2
        else if cont3ok b b2 then '�' :: utf8Decode fuel (b3 :: bs2)
        else '�' :: utf8Decode fuel (b2 :: b3 :: bs2)
      | [b2] => if cont3ok b b2 then ['�'] else '�' :: utf8Decode fuel [b2]
      | [] => ['�']
    else if 0xf0 ≤ b ∧ b ≤ 0xf4 then
      match bs with
      | b2 :: b3 :: b4 :: bs2 =>
        if cont4ok b b2 ∧ isCont b3 ∧ isCont b4 then
          Char.ofNat
              ((b - 0xf0) * 262144 + (b2 - 0x80) * 4096 + (b3 - 0x80) * 64 + (b4 - 0x80)) ::
            utf8Decode fuel bs2
        else if cont4ok b b2 ∧ isCont b3 then '�' :: utf8Decode fuel (b4 :: bs2)
        else if cont4ok b b2 then '�' :: utf8Decode fuel (b3 :: b4 :: bs2)
        else '�' :: utf8Decode fuel (b2 :: b3 :: b4 :: bs2)
      | [b2, b3] =>
        if cont4ok b b2 ∧ isCont b3 then ['�']
        else if cont4ok b b2 then '�' :: utf8Decode fuel [b3]
        else '�' :: utf8Decode fuel [b2, b3]
      | [b2] => if cont4ok b b2 then ['�'] else '�' :: utf8Decode fuel [b2]
      | [] => ['�']
    else '�' :: utf8Decode fuel bs

/-- Model of `urllib.parse.unquote_plus`: `+` becomes a space, then `%XX`
percent-escapes are decoded and the byte sequence is read back as UTF-8 with
replacement characters. Fuel arguments start at the input length, which the
scans never exhaust. -/
def unquote_plus (s : String) : String :=
  let bs := pctBytes s.data.length (s.data.map (fun c => if c = '+' then ' ' else c))
  String.mk (utf8Decode bs.length bs)

/-- Model of `replace_string_by_mapping`: each mapping pair applied in order
with `str.replace` (all occurrences), earlier replacements feeding later
ones. -/
def replace_string_by_mapping (body_text : String) (mapping : List (String × String)) : String :=
  mapping.foldl (fun acc p => pyReplace acc p.1 p.2) body_text

/-! ## Timestamps -/

/-- An aware timestamp: the instant as microseconds since the Unix epoch,
plus the attached UTC offset in minutes (a `datetime` with a `tzinfo`). -/
structure DateTime where
  epochMicro : Int
  offsetMin : Int
deriving Repr, DecidableEq, Inhabited

/-- Days from 1970-01-01 to the civil date `y-m-d` (proleptic Gregorian,
`1 ≤ y` as `datetime` requires). -/
def days_from_civil (y m d : Nat) : Int :=
  let y2 := if m ≤ 2 then y - 1 else y
  let yoe := y2 % 400
  let doy := (153 * ((m + 9) % 12) + 2) / 5 + d - 1
  let doe := yoe * 365 + yoe / 4 - yoe / 100 + doy
  ((y2 / 400) * 146097 + doe : Int) - 719468

def isLeapYear (y : Nat) : Bool := y % 4 = 0 && (y % 100 ≠ 0 || y % 400 = 0)

def daysInMonth (y m : Nat) : Nat :=
  if m = 2 then if isLeapYear y then 29 else 28
  else if m = 4 ∨ m = 6 ∨ m = 9 ∨ m = 11 then 30
  else 31

/-- Greedy run of at most `n` leading decimal digits. -/
def takeDigitsMax : Nat → List Char → List Char × List Char
  | 0, cs => ([], cs)
  | _ + 1, [] => ([], [])
  | n + 1, c :: cs =>
    if isDigitChar c then
      let p := takeDigitsMax n cs
      (c :: p.1, p.2)
    else ([], c :: cs)

/-- Require one exact character at the head. -/
def expectCh (ch : Char) : List Char → Option (List Char)
  | [] => none
  | c :: cs => if c = ch then some cs else none

/-- ASCII lower-casing, for `strptime`'s IGNORECASE matching. -/
def lowerCh (c : Char) : Char :=
  if 65 ≤ c.toNat ∧ c.toNat ≤ 90 then Char.ofNat (c.toNat + 32) else c

/-- Case-insensitive literal match (`strptime` compiles its format with
IGNORECASE). -/
def expectStrI : List Char → List Char → Option (List Char)
  | [], cs => some cs
  | _ :: _, [] => none
  | e :: es, c :: cs2 => if lowerCh c = lowerCh e then expectStrI es cs2 else none

/-- Try each name in turn, returning its index and the rest of the input. -/
def matchNameIdx : List (List Char) → Nat → List Char → Option (Nat × List Char)
  | [], _, _ => none
  | n :: ns, i, cs =>
    match expectStrI n cs with
    | some r => some (i, r)
    | none => matchNameIdx ns (i + 1) cs

def weekdayNames : List (List Char) :=
  [['M', 'o', 'n'], ['T', 'u', 'e'], ['W', 'e', 'd'], ['T', 'h', 'u'], ['F', 'r', 'i'],
    ['S', 'a', 't'], ['S', 'u', 'n']]

def monthNames : List (List Char) :=
  [['J', 'a', 'n'], ['F', 'e', 'b'], ['M', 'a', 'r'], ['A', 'p', 'r'], ['M', 'a', 'y'],
    ['J', 'u', 'n'], ['J', 'u', 'l'], ['A', 'u', 'g'], ['S', 'e', 'p'], ['O', 'c', 't'],
    ['N', 'o', 'v'], ['D', 'e', 'c']]

/-- Build a `%z` offset in minutes from its sign and components (the
`timezone` constructor requires it strictly inside a day). -/
def mkOff (sign : Char) (hh mm : Nat) (rest : List Char) : Option (Int × List Char) :=
  if 23 < hh ∨ 59 < mm then none
  else some (if sign = '-' then -((hh * 60 + mm : Nat) : Int) else ((hh * 60 + mm : Nat) : Int), rest)

/-- The `%z` directive: `Z`, `±HHMM` or `±HH:MM` (the seconds form is outside
the model); returns the offset in minutes. -/
def parseTzOffset : List Char → Option (Int × List Char)
  | [] => none
  | c :: cs =>
    if c = 'Z' ∨ c = 'z' then some (0, cs)
    else if c = '+' ∨ c = '-' then
      match cs with
      | h1 :: h2 :: rest =>
        if isDigitChar h1 && isDigitChar h2 then
          match rest with
          | ':' :: m1 :: m2 :: rest2 =>
            if isDigitChar m1 && isDigitChar m2 then
              mkOff c (digitsVal [h1, h2]) (digitsVal [m1, m2]) rest2
            else none
          | m1 :: m2 :: rest2 =>
            if isDigitChar m1 && isDigitChar m2 then
              mkOff c (digitsVal [h1, h2]) (digitsVal [m1, m2]) rest2
            else none
          | _ => none
        else none
      | _ => none
    else none

/-- Model of `parse_start_time`:
`datetime.strptime(s, "%Y-%m-%dT%H:%M:%S.%f%z").astimezone()`, with the
process-local UTC offset passed explicitly in minutes. `none` where
`strptime` or the `datetime` constructor raise. -/
def parse_start_time (datetime_str : String) (localOffsetMin : Int) : Option DateTime := do
  let cs := datetime_str.data
  let (yds, r1) := takeDigitsMax 4 cs
  if yds.length ≠ 4 then none else
  let y := digitsVal yds
  if y = 0 then none else
  let r2 ← expectCh '-' r1
  let (mds, r3) := takeDigitsMax 2 r2
  if mds.length = 0 then none else
  let m := digitsVal mds
  if m < 1 ∨ 12 < m then none else
  let r4 ← expectCh '-' r3
  let (dds, r5) := takeDigitsMax 2 r4
  if dds.length = 0 then none else
  let d := digitsVal dds
  if d < 1 ∨ daysInMonth y m < d then none else
  let r6 ← expectStrI ['T'] r5
  let (hds, r7) := takeDigitsMax 2 r6
  if hds.length = 0 then none else
  let hh := digitsVal hds
  if 23 < hh then none else
  let r8 ← expectCh ':' r7
  let (mids, r9) := takeDigitsMax 2 r8
  if mids.length = 0 then none else
  let mi := digitsVal mids
  if 59 < mi then none else
  let r10 ← expectCh ':' r9
  let (sds, r11) := takeDigitsMax 2 r10
  if sds.length = 0 then none else
  let ss := digitsVal sds
  if 59 < ss then none else
  let r12 ← expectCh '.' r11
  let (fds, r13) := takeDigitsMax 6 r12
  if fds.length = 0 then none else
  let usec := digitsVal fds * 10 ^ (6 - fds.length)
  let (offMin, r14) ← parseTzOffset r13
  if r14 ≠ [] then none else
  let daySec : Int := ((hh * 3600 + mi * 60 + ss : Nat) : Int)
  let localMicro : Int := (days_from_civil y m d * 86400 + daySec) * 1000000 + usec
  some ⟨localMicro - offMin * 60 * 1000000, localOffsetMin⟩

/-- Model of `parse_response_date`:
`datetime.strptime(s, "%a, %d %b %Y %H:%M:%S GMT").replace(tzinfo=utc).astimezone()`,
with the process-local UTC offset passed explicitly in minutes. -/
def parse_response_date (datetime_str : String) (localOffsetMin : Int) : Option DateTime := do
  let cs := datetime_str.data
  let (_, r1) ← matchNameIdx weekdayNames 0 cs
  let r2 ← expectCh ',' r1
  let r3 ← expectCh ' ' r2
  let (dds, r4) := takeDigitsMax 2 r3
  if dds.length = 0 then none else
  let d := digitsVal dds
  let r5 ← expectCh ' ' r4
  let (mIdx, r6) ← matchNameIdx monthNames 0 r5
  let m := mIdx + 1
  let r7 ← expectCh ' ' r6
  let (yds, r8) := takeDigitsMax 4 r7
  if yds.length ≠ 4 then none else
  let y := digitsVal yds
  if y = 0 then none else
  if d < 1 ∨ daysInMonth y m < d then none else
  let r9 ← expectCh ' ' r8
  let (hds, r10) := takeDigitsMax 2 r9
  if hds.length = 0 then none else
  let hh := digitsVal hds
  if 23 < hh then none else
  let r11 ← expectCh ':' r10
  let (mids, r12) := takeDigitsMax 2 r11
  if mids.length = 0 then none else
  let mi := digitsVal mids
  if 59 < mi then none else
  let r13 ← expectCh ':' r12
  let (sds, r14) := takeDigitsMax 2 r13
  if sds.length = 0 then none else
  let ss := digitsVal sds
  if 59 < ss then none else
  let r15 ← expectStrI [' ', 'G', 'M', 'T'] r14
  if r15 ≠ [] then none else
  let daySec : Int := ((hh * 3600 + mi * 60 + ss : Nat) : Int)
  some ⟨(days_from_civil y m d * 86400 + daySec) * 1000000, localOffsetMin⟩

/-! ## The capture entry and the Document -/

/-- The request half of a capture entry, at the interface the builder reads
(the `haralyzer` `Request` accessors it calls). -/
structure HarRequest where
  method : String
  url : String
  host : String
  queryString : List (String × String)
  mimeType : Option String
  text : Option String
deriving Repr, DecidableEq

/-- The response half of a capture entry. -/
structure HarResponse where
  date : String
  status : Nat
  mimeType : Option String
  text : Option String
deriving Repr, DecidableEq

/-- One capture entry: the fields of the HAR record the builder reads. -/
structure HarEntry where
  startedDateTime : String
  request : HarRequest
  response : HarResponse
  time : Nat
deriving Repr, DecidableEq

/-- The `Document` record of the source, field for field. `response_body` is
annotated `str` there but is built by the same `and` expression as
`request_body`, so both are optional here. -/
structure Document where
  request_datetime : DateTime
  request_method : String
  request_url : String
  request_host : String
  request_path : String
  request_query_string : List (String × String)
  request_content_type : Option String
  request_body : Option String
  response_datetime : DateTime
  response_status_code : Nat
  response_content_type : Option String
  response_body : Option String
  time_elapsed : Nat
deriving Repr, DecidableEq, Inhabited

/-- Model of `parse_request_query_string`: the dict comprehension over the
capture's name/value pairs. -/
def parse_request_query_string (query_string : List (String × String)) :
    List (String × String) :=
  odFold query_string

/-- The failures `convert_har_entry_to_document` can propagate. -/
inductive ConvertError where
  | startTime
  | emptyHost
  | malformedBody
  | responseDate
deriving Repr, DecidableEq

/-- Model of `parse_body_text`: dispatch on the content type. Exactly
`"application/json"` is parsed and pretty-printed, raising on malformed
JSON; any other value — absent included — passes through unchanged. -/
def parse_body_text (text : String) (content_type : Option String) :
    Except ConvertError String :=
  match content_type with
  | some ct =>
    if ct = "application/json" then
      match json_loads text with
      | some v => .ok (json_dumps v)
      | none => .error .malformedBody
    else .ok text
  | none => .ok text

/-- The builder's body expression,
`text and replace_string(parse_body_text(text, mimeType))`: Python's `and`
short-circuits on a falsy body (`None` or `""`) and returns it unchanged. -/
def body_field (text : Option String) (mimeType : Option String)
    (replace_string : String → String) : Except ConvertError (Option String) :=
  match text with
  | none => .ok none
  | some t =>
    if t = "" then .ok (some "")
    else
      match parse_body_text t mimeType with
      | .ok s => .ok (some (replace_string s))
      | .error e => .error e

/-- Model of `convert_har_entry_to_document`, with the process-local UTC
offset (minutes) passed explicitly. Fallible sub-steps surface in the order
the Python dict literal evaluates them (`str.split` raises on an empty
host separator). -/
def convert_har_entry_to_document (entry : HarEntry) (replace_string : String → String)
    (localOffsetMin : Int) : Except ConvertError Document :=
  match parse_start_time entry.startedDateTime localOffsetMin with
  | none => .error .startTime
  | some reqDt =>
    if entry.request.host = "" then .error .emptyHost
    else
      match body_field entry.request.text entry.request.mimeType replace_string with
      | .error e => .error e
      | .ok reqBody =>
        match parse_response_date entry.response.date localOffsetMin with
        | none => .error .responseDate
        | some respDt =>
          match body_field entry.response.text entry.response.mimeType replace_string with
          | .error e => .error e
          | .ok respBody =>
            .ok
              { request_datetime := reqDt
                request_method := entry.request.method
                request_url := unquote_plus entry.request.url
                request_host := unquote_plus entry.request.host
                request_path :=
                  unquote_plus ((entry.request.url.splitOn entry.request.host).getLastD "")
                request_query_string := parse_request_query_string entry.request.queryString
                request_content_type := entry.request.mimeType
                request_body := reqBody
                response_datetime := respDt
                response_status_code := entry.response.status
                response_content_type := entry.response.mimeType
                response_body := respBody
                time_elapsed := entry.time }

/-! ## The Markdown components and the render engine -/

/-- The markdown component kinds of the source, one per class. -/
inductive ComponentKind where
  | endpoint
  | queryParameter
  | requestHeader
  | requestBody
  | responseBody
deriving Repr, DecidableEq

/-- How Python renders `None` inside an f-string. -/
def pyOptStr : Option String → String
  | none => "None"
  | some s => s

/-- Model of `Endpoint.render`: for GET requests each `key=value` of the query
mapping is substituted to `key={key}` by `str.replace` on the document's
`request_path` — the source assigns each result back into
`self.document["request_path"]`, so the returned document carries the
templated path. -/
def Endpoint.render (d : Document) : String × Document :=
  if d.request_method = "GET" then
    let newPath :=
      d.request_query_string.foldl
        (fun p kv => pyReplace p (kv.1 ++ "=" ++ kv.2) (kv.1 ++ "=\x7b" ++ kv.1 ++ "\x7d"))
        d.request_path
    let d2 := { d with request_path := newPath }
    ("### " ++ d2.request_method ++ " `" ++ d2.request_path ++ "`", d2)
  else ("### " ++ d.request_method ++ " `" ++ d.request_path ++ "`", d)

/-- Model of `QueryParameter.render`. -/
def QueryParameter.render (d : Document) : String :=
  "Query Parameter\n\n" ++
    pyJoin "\n" (d.request_query_string.map (fun p => "- `" ++ p.1 ++ "`: `" ++ p.2 ++ "`"))

/-- Model of `QueryParameter.condition`: a non-empty query mapping. -/
def QueryParameter.condition (d : Document) : Bool :=
  !d.request_query_string.isEmpty

/-- Model of `RequestHeader.render`. -/
def RequestHeader.render (d : Document) : String :=
  "Request Header\n\n- Content-Type: `" ++ pyOptStr d.request_content_type ++ "`"

/-- Model of `RequestHeader.condition`:
`bool(content_type and content_type != "application/json")`. -/
def RequestHeader.condition (d : Document) : Bool :=
  match d.request_content_type with
  | none => false
  | some s => !(s = "") && !(s = "application/json")

/-- Model of `RequestBody.render` (`or ''` renders an absent body empty). -/
def RequestBody.render (d : Document) : String :=
  "Request Body\n\n```json\n" ++ (d.request_body.getD "") ++ "\n```"

/-- Model of `RequestBody.condition`: every method except GET. -/
def RequestBody.condition (d : Document) : Bool :=
  !(d.request_method = "GET")

/-- Model of `ResponseBody.render`: the heading carries the numeric status
code; `or ''` renders an absent body as an empty fenced block. -/
def ResponseBody.render (d : Document) : String :=
  "Response Body (" ++ toString d.response_status_code ++ ")\n\n```json\n" ++
    (d.response_body.getD "") ++ "\n```"

/-- Per-kind applicability; `Endpoint` and `ResponseBody` inherit the base
class's always-true `condition`. -/
def ComponentKind.condition : ComponentKind → Document → Bool
  | .endpoint, _ => true
  | .queryParameter, d => QueryParameter.condition d
  | .requestHeader, d => RequestHeader.condition d
  | .requestBody, d => RequestBody.condition d
  | .responseBody, _ => true

/-- Per-kind rendering. `Endpoint` is the only component whose render writes
into the document; the updated document flows to the later components. -/
def ComponentKind.renderStep : ComponentKind → Document → String × Document
  | .endpoint, d => Endpoint.render d
  | .queryParameter, d => (QueryParameter.render d, d)
  | .requestHeader, d => (RequestHeader.render d, d)
  | .requestBody, d => (RequestBody.render d, d)
  | .responseBody, d => (ResponseBody.render d, d)

/-- The blocks of one render pass: each kind's condition is evaluated in list
order against the current document state; inapplicable kinds emit nothing,
applicable kinds render (possibly updating the document). -/
def collectBlocks : List ComponentKind → Document → List String
  | [], _ => []
  | k :: ks, d =>
    if k.condition d then
      (k.renderStep d).1 :: collectBlocks ks (k.renderStep d).2
    else collectBlocks ks d

/-- Model of `render_document_to_markdown`: the applicable components'
blocks joined with `"\n\n"`. -/
def render_document_to_markdown (document : Document)
    (component_classes : List ComponentKind) : String :=
  pyJoin "\n\n" (collectBlocks component_classes document)

/-- Model of `render_documents_to_markdown`: each document rendered, the
results joined with `"\n\n"` in input order. -/
def render_documents_to_markdown (documents : List Document)
    (component_classes : List ComponentKind) : String :=
  pyJoin "\n\n" (documents.map (fun d => render_document_to_markdown d component_classes))

/-! ## Vocabulary taken from the specification's wording -/

/-- Join discipline as the specification words it: nothing for zero blocks, a
single block stands alone, otherwise exactly one `"\n\n"` between
consecutive blocks, none leading or trailing. -/
def specJoin : List String → String
  | [] => ""
  | [b] => b
  | b :: bs => b ++ "\n\n" ++ specJoin bs

/-- First occurrence of each element, in order: the iteration order of a
Python dict built from a pair sequence. -/
def dedupFirst : List String → List String
  | [] => []
  | k :: ks => k :: dedupFirst (ks.filter (fun x => x ≠ k))
termination_by l => l.length
decreasing_by
  simp only [List.length_cons]
  exact Nat.lt_succ_of_le (List.length_filter_le _ _)

/-- Lookup in an ordered mapping: the value at the first pair carrying `k`. -/
def odLookup {α : Type} (k : String) : List (String × α) → Option α
  | [] => none
  | p :: d => if p.1 = k then some p.2 else odLookup k d

/-- Value of the last occurrence of key `k` in a pair sequence. -/
def lastVal {α : Type} (k : String) (qs : List (String × α)) : Option α :=
  ((qs.filter (fun p => p.1 = k)).getLast?).map Prod.snd

/-- A Python-falsy optional string: absent, or present but empty. This is what
the source's truthiness tests and the specification's "absent (not
rendered)" denote. -/
def isFalsy (b : Option String) : Prop := b = none ∨ b = some ""

/-! ## Small helper lemmas -/

theorem char_eq_of_toNat (a b : Char) (h : a.toNat = b.toNat) : a = b :=
  Char.eq_of_val_eq (UInt32.toNat.inj h)

theorem char_toNat_ofNat_valid (m : Nat) (h : m < 0xd800) : (Char.ofNat m).toNat = m := by
  have hv : Nat.isValidChar m := Or.inl h
  simp only [Char.ofNat, hv, dif_pos, Char.ofNatAux, Char.toNat]
  simp [UInt32.toNat, BitVec.toNat_ofNat]

theorem pyJoin_foldl (bs : List String) :
    ∀ b, List.foldl (fun a s => a ++ "\n\n" ++ s) b bs = specJoin (b :: bs) := by
  induction bs with
  | nil => intro b; simp [specJoin]
  | cons x xs ih =>
    intro b
    rw [List.foldl_cons, ih (b ++ "\n\n" ++ x)]
    cases xs with
    | nil => simp [specJoin]
    | cons y ys => simp [specJoin, String.append_assoc]

theorem pyJoin_eq_specJoin (l : List String) : pyJoin "\n\n" l = specJoin l := by
  cases l with
  | nil => rfl
  | cons b bs => exact pyJoin_foldl bs b

/-! ## C1 — `Endpoint.render` and the stored `request_path` -/

/-- A GET document whose stored decoded path carries its query pair
literally, as the builder produces it. -/
def docC1 : Document :=
  { request_datetime := ⟨0, 540⟩, request_method := "GET"
    request_url := "https://h/api/users/?page=1", request_host := "h"
    request_path := "/api/users/?page=1", request_query_string := [("page", "1")]
    request_content_type := none, request_body := none
    response_datetime := ⟨0, 540⟩, response_status_code := 200
    response_content_type := none, response_body := none, time_elapsed := 0 }

/-- C1: contrary to the claim, `Endpoint.render` does not leave the stored
document unchanged — on a GET document holding path `/api/users/?page=1`
with query pair `page=1`, the document returned by the render step stores
the templated path, not the literal decoded path it held before. -/
theorem claim1_endpoint_render_mutates :
    docC1.request_path = "/api/users/?page=1" ∧
    (Endpoint.render docC1).2.request_path = "/api/users/?page=\x7bpage\x7d" :=
  ⟨rfl, rfl⟩

/-! ## C4 — join discipline of the render engine -/

/-- C4: one render pass joins exactly the applicable components' blocks with
`"\n\n"` — nothing leading, nothing trailing, nothing for zero or one
block beyond the block itself — the block list is produced in component
order, a kind whose condition is false contributes nothing, and a document
list is joined the same way in input order. -/
theorem claim4_join_discipline (d : Document) (ks : List ComponentKind) :
    render_document_to_markdown d ks = specJoin (collectBlocks ks d) ∧
    (∀ docs : List Document,
      render_documents_to_markdown docs ks =
        specJoin (docs.map (fun d2 => render_document_to_markdown d2 ks))) ∧
    (∀ k : ComponentKind, k.condition d = false →
      collectBlocks (k :: ks) d = collectBlocks ks d) := by
  refine ⟨pyJoin_eq_specJoin _, fun docs => pyJoin_eq_specJoin _, fun k h => ?_⟩
  simp [collectBlocks, h]

/-- A POST document with an empty query mapping. -/
def docC4 : Document :=
  { request_datetime := ⟨0, 540⟩, request_method := "POST"
    request_url := "https://h/a", request_host := "h"
    request_path := "/a", request_query_string := []
    request_content_type := none, request_body := none
    response_datetime := ⟨0, 540⟩, response_status_code := 200
    response_content_type := none, response_body := none, time_elapsed := 0 }

theorem claim4_witness :
    collectBlocks [ComponentKind.queryParameter, ComponentKind.responseBody] docC4 =
      collectBlocks [ComponentKind.responseBody] docC4 :=
  (claim4_join_discipline docC4 [ComponentKind.responseBody]).2.2 ComponentKind.queryParameter rfl

/-! ## C5 — ResponseBody is unconditional -/

/-- C5: the ResponseBody component is applicable for every document, and on
an absent (falsy) response body it renders the status-annotated heading
followed by an empty json fenced block. -/
theorem claim5_response_body_always (d : Document) :
    ComponentKind.condition ComponentKind.responseBody d = true ∧
    (isFalsy d.response_body →
      ResponseBody.render d =
        "Response Body (" ++ toString d.response_status_code ++ ")\n\n```json\n\n```") := by
  refine ⟨rfl, fun h => ?_⟩
  unfold ResponseBody.render
  rcases h with h | h <;> rw [h] <;> simp [String.append_assoc]

/-- A document with status 200 and an absent response body. -/
def docC5 : Document :=
  { request_datetime := ⟨0, 540⟩, request_method := "GET"
    request_url := "https://h/a", request_host := "h"
    request_path := "/a", request_query_string := []
    request_content_type := none, request_body := none
    response_datetime := ⟨0, 540⟩, response_status_code := 200
    response_content_type := none, response_body := none, time_elapsed := 0 }

theorem claim5_witness :
    ComponentKind.condition ComponentKind.responseBody docC5 = true ∧
    ResponseBody.render docC5 = "Response Body (200)\n\n```json\n\n```" :=
  ⟨(claim5_response_body_always docC5).1,
    ((claim5_response_body_always docC5).2 (Or.inl rfl)).trans (by rfl)⟩

/-! ## C8 — RequestHeader applicability -/

/-- C8: RequestHeader is applicable exactly when the request content type is
present (carries a non-empty value — the source treats the empty string
like an absent one) and is not exactly `application/json`; in particular a
document whose request content type is exactly `application/json` renders
no RequestHeader section. -/
theorem claim8_request_header_condition (d : Document) :
    (ComponentKind.condition ComponentKind.requestHeader d = true ↔
      ∃ s, d.request_content_type = some s ∧ s ≠ "" ∧ s ≠ "application/json") ∧
    (d.request_content_type = some "application/json" →
      ComponentKind.condition ComponentKind.requestHeader d = false) := by
  constructor
  · constructor
    · intro h
      cases hct : d.request_content_type with
      | none =>
        simp only [ComponentKind.condition, RequestHeader.condition, hct] at h
        exact absurd h (by simp)
      | some s =>
        simp only [ComponentKind.condition, RequestHeader.condition, hct,
          Bool.and_eq_true, Bool.not_eq_true', decide_eq_false_iff_not] at h
        exact ⟨s, rfl, h.1, h.2⟩
    · rintro ⟨s, hs, h1, h2⟩
      simp only [ComponentKind.condition, RequestHeader.condition, hs,
        Bool.and_eq_true, Bool.not_eq_true', decide_eq_false_iff_not]
      exact ⟨h1, h2⟩
  · intro h
    simp only [ComponentKind.condition, RequestHeader.condition, h]
    decide

/-- A document whose request content type is `text/html`. -/
def docC8 : Document :=
  { request_datetime := ⟨0, 540⟩, request_method := "POST"
    request_url := "https://h/a", request_host := "h"
    request_path := "/a", request_query_string := []
    request_content_type := some "text/html", request_body := none
    response_datetime := ⟨0, 540⟩, response_status_code := 200
    response_content_type := none, response_body := none, time_elapsed := 0 }

theorem claim8_witness :
    ComponentKind.condition ComponentKind.requestHeader docC8 = true :=
  (claim8_request_header_condition docC8).1.mpr ⟨"text/html", rfl, by decide, by decide⟩

/-! ## C7 — when the body normalizer fails -/

/-- C7: `parse_body_text` fails exactly when the content type is exactly
`application/json` and the text is not valid JSON; for every other content
type, absent included, it returns the input unchanged and never fails. -/
theorem claim7_normalizer_error_iff (t : String) (ct : Option String) :
    ((∃ e, parse_body_text t ct = .error e) ↔
      ct = some "application/json" ∧ json_loads t = none) ∧
    (ct ≠ some "application/json" → parse_body_text t ct = .ok t) := by
  constructor
  · constructor
    · rintro ⟨e, he⟩
      cases ct with
      | none => simp only [parse_body_text] at he; exact absurd he (by simp)
      | some s =>
        by_cases hs : s = "application/json"
        · subst hs
          refine ⟨rfl, ?_⟩
          simp only [parse_body_text, if_pos rfl] at he
          cases hl : json_loads t with
          | none => rfl
          | some v => rw [hl] at he; exact absurd he (by simp)
        · simp only [parse_body_text, if_neg hs] at he
          exact absurd he (by simp)
    · rintro ⟨hct, hl⟩
      subst hct
      exact ⟨ConvertError.malformedBody, by simp [parse_body_text, hl]⟩
  · intro h
    cases ct with
    | none => rfl
    | some s =>
      have hs : s ≠ "application/json" := fun hs => h (by rw [hs])
      simp only [parse_body_text, if_neg hs]

theorem claim7_witness : parse_body_text "x" none = .ok "x" :=
  (claim7_normalizer_error_iff "x" none).2 (by decide)

/-! ## The shape of a successful conversion -/

/-- Inversion of a successful `convert_har_entry_to_document`: every fallible
step succeeded and the document is the record the builder assembles. -/
theorem convert_ok_inv (e : HarEntry) (r : String → String) (o : Int) (d : Document)
    (h : convert_har_entry_to_document e r o = .ok d) :
    ∃ reqDt reqBody respDt respBody,
      parse_start_time e.startedDateTime o = some reqDt ∧
      e.request.host ≠ "" ∧
      body_field e.request.text e.request.mimeType r = .ok reqBody ∧
      parse_response_date e.response.date o = some respDt ∧
      body_field e.response.text e.response.mimeType r = .ok respBody ∧
      d = { request_datetime := reqDt
            request_method := e.request.method
            request_url := unquote_plus e.request.url
            request_host := unquote_plus e.request.host
            request_path := unquote_plus ((e.request.url.splitOn e.request.host).getLastD "")
            request_query_string := parse_request_query_string e.request.queryString
            request_content_type := e.request.mimeType
            request_body := reqBody
            response_datetime := respDt
            response_status_code := e.response.status
            response_content_type := e.response.mimeType
            response_body := respBody
            time_elapsed := e.time } := by
  unfold convert_har_entry_to_document at h
  split at h
  · exact absurd h (by simp)
  · next reqDt hst =>
    split at h
    · exact absurd h (by simp)
    · next hh =>
      split at h
      · exact absurd h (by simp)
      · next reqBody hb =>
        split at h
        · exact absurd h (by simp)
        · next respDt hrd =>
          split at h
          · exact absurd h (by simp)
          · next respBody hs =>
            injection h with h2
            exact ⟨reqDt, reqBody, respDt, respBody, hst, hh, hb, hrd, hs, h2.symm⟩

/-! ## C10 — masking touches only the two body fields -/

/-- C10: two conversions of the same entry under different masking functions
agree on every Document field except `request_body` and `response_body`; in
particular the URL, host, path and query mapping are never scrubbed. -/
theorem claim10_masking_frame (e : HarEntry) (r1 r2 : String → String) (o : Int)
    (d1 d2 : Document)
    (h1 : convert_har_entry_to_document e r1 o = .ok d1)
    (h2 : convert_har_entry_to_document e r2 o = .ok d2) :
    d1.request_datetime = d2.request_datetime ∧
    d1.request_method = d2.request_method ∧
    d1.request_url = d2.request_url ∧
    d1.request_host = d2.request_host ∧
    d1.request_path = d2.request_path ∧
    d1.request_query_string = d2.request_query_string ∧
    d1.request_content_type = d2.request_content_type ∧
    d1.response_datetime = d2.response_datetime ∧
    d1.response_status_code = d2.response_status_code ∧
    d1.response_content_type = d2.response_content_type ∧
    d1.time_elapsed = d2.time_elapsed := by
  obtain ⟨qDt1, qB1, pDt1, pB1, hst1, _, _, hrd1, _, hd1⟩ := convert_ok_inv e r1 o d1 h1
  obtain ⟨qDt2, qB2, pDt2, pB2, hst2, _, _, hrd2, _, hd2⟩ := convert_ok_inv e r2 o d2 h2
  have hq : qDt1 = qDt2 := Option.some.inj (hst1.symm.trans hst2)
  have hp : pDt1 = pDt2 := Option.some.inj (hrd1.symm.trans hrd2)
  subst hd1 hd2 hq hp
  exact ⟨rfl, rfl, rfl, rfl, rfl, rfl, rfl, rfl, rfl, rfl, rfl⟩

/-! ## Non-emptiness of the pretty-printer's output -/

theorem printNatAux_eq :
    ∀ (fuel n : Nat) (acc : List Char), n ≤ fuel →
      printNatAux fuel n acc =
        ((Nat.digits 10 n).map (fun d => Char.ofNat (48 + d))).reverse ++ acc := by
  intro fuel
  induction fuel with
  | zero =>
    intro n acc h
    interval_cases n
    simp [printNatAux]
  | succ f ih =>
    intro n acc h
    by_cases hn : n = 0
    · subst hn; simp [printNatAux]
    · simp only [printNatAux, if_neg hn]
      rw [ih (n / 10) _ ?hle]
      · rw [Nat.digits_def' (by norm_num : (1 : Nat) < 10) (Nat.pos_of_ne_zero hn)]
        simp [List.reverse_cons, List.append_assoc]
      case hle =>
        have := Nat.div_lt_self (Nat.pos_of_ne_zero hn) (by norm_num : 1 < 10)
        omega

theorem printNat_eq (n : Nat) (hn : n ≠ 0) :
    printNat n = ((Nat.digits 10 n).map (fun d => Char.ofNat (48 + d))).reverse := by
  unfold printNat
  rw [if_neg hn, printNatAux_eq n n [] le_rfl, List.append_nil]

theorem printNat_ne_nil (n : Nat) : printNat n ≠ [] := by
  by_cases hn : n = 0
  · subst hn; simp [printNat]
  · rw [printNat_eq n hn]
    simp [Nat.digits_ne_nil_iff_ne_zero, hn]

theorem printJson_ne_nil (v : Json) (lvl : Nat) : printJson v lvl ≠ [] := by
  cases v with
  | null => simp [printJson]
  | bool b => cases b <;> simp [printJson]
  | num n =>
    simp only [printJson, printInt]
    split
    · simp
    · exact printNat_ne_nil _
  | str s => simp [printJson]
  | arr xs => cases xs <;> simp [printJson]
  | obj ms => cases ms <;> simp [printJson]

theorem json_dumps_ne_empty (v : Json) : json_dumps v ≠ "" := by
  unfold json_dumps
  intro h
  exact printJson_ne_nil v 0 (congrArg String.data h)

theorem parse_body_text_ok_ne_empty (t : String) (mt : Option String) (s : String)
    (h : parse_body_text t mt = .ok s) (ht : t ≠ "") : s ≠ "" := by
  cases mt with
  | none =>
    simp only [parse_body_text] at h
    injection h with h'
    rw [← h']; exact ht
  | some ct =>
    by_cases hct : ct = "application/json"
    · subst hct
      simp only [parse_body_text, if_pos rfl] at h
      cases hl : json_loads t with
      | none => rw [hl] at h; exact absurd h (by simp)
      | some v => rw [hl] at h; injection h with h'; rw [← h']; exact json_dumps_ne_empty v
    · simp only [parse_body_text, if_neg hct] at h
      injection h with h'
      rw [← h']; exact ht

/-! ## C2 — when a body field is falsy -/

theorem body_field_ok_inv (text mime : Option String) (r : String → String) (b : Option String)
    (h : body_field text mime r = .ok b) :
    (text = none ∧ b = none) ∨ (text = some "" ∧ b = some "") ∨
    (∃ t s, text = some t ∧ t ≠ "" ∧ parse_body_text t mime = .ok s ∧ b = some (r s)) := by
  cases text with
  | none =>
    simp only [body_field] at h
    injection h with h'
    exact Or.inl ⟨rfl, h'.symm⟩
  | some t =>
    by_cases ht : t = ""
    · subst ht
      simp only [body_field, if_pos rfl] at h
      injection h with h'
      exact Or.inr (Or.inl ⟨rfl, h'.symm⟩)
    · simp only [body_field, if_neg ht] at h
      cases hp : parse_body_text t mime with
      | error e => rw [hp] at h; exact absurd h (by simp)
      | ok s =>
        rw [hp] at h
        injection h with h'
        exact Or.inr (Or.inr ⟨t, s, rfl, ht, hp, h'.symm⟩)

theorem body_field_falsy (text mime : Option String) (r : String → String) (b : Option String)
    (h : body_field text mime r = .ok b) :
    (isFalsy text → isFalsy b) ∧
    ((∀ s, s ≠ "" → r s ≠ "") → (isFalsy b ↔ isFalsy text)) := by
  rcases body_field_ok_inv text mime r b h with ⟨ht, hb⟩ | ⟨ht, hb⟩ | ⟨t, s, ht, htne, hp, hb⟩
  · subst ht; subst hb
    exact ⟨fun _ => Or.inl rfl, fun _ => ⟨fun _ => Or.inl rfl, fun _ => Or.inl rfl⟩⟩
  · subst ht; subst hb
    exact ⟨fun _ => Or.inr rfl, fun _ => ⟨fun _ => Or.inr rfl, fun _ => Or.inr rfl⟩⟩
  · subst ht; subst hb
    have habs : ¬ isFalsy (some t) := by
      rintro (h0 | h0)
      · exact Option.noConfusion h0
      · exact htne (Option.some.inj h0)
    refine ⟨fun hf => absurd hf habs, fun hr => ?_⟩
    have hs : s ≠ "" := parse_body_text_ok_ne_empty t mime s hp htne
    have hrs : ¬ isFalsy (some (r s)) := by
      rintro (h0 | h0)
      · exact Option.noConfusion h0
      · exact hr s hs (Option.some.inj h0)
    exact ⟨fun hf => absurd hf hrs, fun hf => absurd hf habs⟩

/-- An entry whose request body is the non-empty text `ab`; the mask below
erases it entirely. -/
def eC2 : HarEntry :=
  { startedDateTime := "2024-01-31T14:42:19.605+09:00"
    request := { method := "POST", url := "https://h/a", host := "h", queryString := []
                 mimeType := some "text/plain", text := some "ab" }
    response := { date := "Mon, 01 Nov 2021 07:00:00 GMT", status := 200
                  mimeType := none, text := none }
    time := 1 }

/-- The masking function of the counterexample, `parial(replace_string_by_mapping)`
with the single rule `ab ↦ ""`. -/
def maskC2 : String → String := fun s => replace_string_by_mapping s [("ab", "")]

/-- The document the pipeline builds from `eC2` under `maskC2`. -/
def docC2 : Document :=
  match convert_har_entry_to_document eC2 maskC2 540 with
  | .ok d => d
  | .error _ => default

/-- C2 (counterexample): on the entry `eC2`, whose request body is the
non-empty text `ab`, masked with the rule `ab ↦ ""`, the pipeline builds a
document whose `request_body` is the empty string — falsy, hence absent from
rendering — although the source body text was neither empty nor absent. This
refutes the claim's "only if" direction as stated. -/
theorem claim2_body_absent_counterexample :
    convert_har_entry_to_document eC2 maskC2 540 = .ok docC2 ∧
    isFalsy docC2.request_body ∧ ¬ isFalsy eC2.request.text := by
  refine ⟨rfl, Or.inr rfl, ?_⟩
  rintro (h | h) <;> simp [eC2] at h

/-- C2 (amended): a falsy (empty or absent) source body always yields a falsy
body field; and provided the masking function never erases a non-empty string
to the empty string, the built body field is falsy exactly when the source
body text was empty or absent before normalization. -/
theorem claim2_body_absent_iff_amended (e : HarEntry) (r : String → String) (o : Int)
    (d : Document) (h : convert_har_entry_to_document e r o = .ok d) :
    (isFalsy e.request.text → isFalsy d.request_body) ∧
    (isFalsy e.response.text → isFalsy d.response_body) ∧
    ((∀ s, s ≠ "" → r s ≠ "") →
      ((isFalsy d.request_body ↔ isFalsy e.request.text) ∧
        (isFalsy d.response_body ↔ isFalsy e.response.text))) := by
  obtain ⟨reqDt, reqBody, respDt, respBody, _, _, hb, _, hsb, hd⟩ := convert_ok_inv e r o d h
  have h1 := body_field_falsy _ _ _ _ hb
  have h2 := body_field_falsy _ _ _ _ hsb
  subst hd
  exact ⟨h1.1, h2.1, fun hr => ⟨h1.2 hr, h2.2 hr⟩⟩

/-- An entry with the non-empty request body `x` and no masking. -/
def eC2W : HarEntry :=
  { startedDateTime := "2024-01-31T14:42:19.605+09:00"
    request := { method := "POST", url := "https://h/a", host := "h", queryString := []
                 mimeType := none, text := some "x" }
    response := { date := "Mon, 01 Nov 2021 07:00:00 GMT", status := 200
                  mimeType := none, text := some "" }
    time := 1 }

/-- The document built from `eC2W` under the identity masking. -/
def docC2W : Document :=
  match convert_har_entry_to_document eC2W (fun s => s) 540 with
  | .ok d => d
  | .error _ => default

theorem claim2_witness :
    isFalsy docC2W.request_body ↔ isFalsy eC2W.request.text :=
  ((claim2_body_absent_iff_amended eC2W (fun s => s) 540 docC2W rfl).2.2
    (fun _ hs => hs)).1

/-! ## C3 — masking is applied to the formatted body -/

/-- C3: for a non-empty source body the built body field is exactly the
masking function applied to the content-type-specific formatting of the raw
text — the mask runs on the normalizer's output, never on the raw text. -/
theorem claim3_mask_after_normalize (e : HarEntry) (r : String → String) (o : Int)
    (d : Document) (h : convert_har_entry_to_document e r o = .ok d) :
    (∀ t, e.request.text = some t → t ≠ "" →
      ∃ s, parse_body_text t e.request.mimeType = .ok s ∧ d.request_body = some (r s)) ∧
    (∀ t, e.response.text = some t → t ≠ "" →
      ∃ s, parse_body_text t e.response.mimeType = .ok s ∧ d.response_body = some (r s)) := by
  obtain ⟨reqDt, reqBody, respDt, respBody, _, _, hb, _, hsb, hd⟩ := convert_ok_inv e r o d h
  subst hd
  constructor
  · intro t ht htne
    rcases body_field_ok_inv _ _ _ _ hb with ⟨h0, _⟩ | ⟨h0, _⟩ | ⟨t', s, h0, _, hp, hbs⟩
    · rw [ht] at h0; exact absurd h0 (by simp)
    · rw [ht] at h0; exact absurd (Option.some.inj h0) htne
    · rw [ht] at h0
      obtain rfl : t = t' := Option.some.inj h0
      exact ⟨s, hp, hbs⟩
  · intro t ht htne
    rcases body_field_ok_inv _ _ _ _ hsb with ⟨h0, _⟩ | ⟨h0, _⟩ | ⟨t', s, h0, _, hp, hbs⟩
    · rw [ht] at h0; exact absurd h0 (by simp)
    · rw [ht] at h0; exact absurd (Option.some.inj h0) htne
    · rw [ht] at h0
      obtain rfl : t = t' := Option.some.inj h0
      exact ⟨s, hp, hbs⟩

/-- An entry whose request body is JSON text with raw spacing. -/
def eC3 : HarEntry :=
  { startedDateTime := "2024-01-31T14:42:19.605+09:00"
    request := { method := "POST", url := "https://h/a", host := "h", queryString := []
                 mimeType := some "application/json", text := some "\x7b\"a\":1\x7d" }
    response := { date := "Mon, 01 Nov 2021 07:00:00 GMT", status := 200
                  mimeType := none, text := none }
    time := 1 }

/-- The document built from `eC3` under the identity masking. -/
def docC3 : Document :=
  match convert_har_entry_to_document eC3 (fun s => s) 540 with
  | .ok d => d
  | .error _ => default

theorem claim3_witness :
    ∃ s, parse_body_text "\x7b\"a\":1\x7d" eC3.request.mimeType = .ok s ∧
      docC3.request_body = some s :=
  (claim3_mask_after_normalize eC3 (fun s => s) 540 docC3 rfl).1 "\x7b\"a\":1\x7d" rfl
    (by decide)

/-- An entry whose response body contains a secret that one of the two
masking rule sets below scrubs. -/
def eC10 : HarEntry :=
  { startedDateTime := "2024-01-31T14:42:19.605+09:00"
    request := { method := "GET", url := "https://h/a?secret=John", host := "h"
                 queryString := [("secret", "John")]
                 mimeType := none, text := none }
    response := { date := "Mon, 01 Nov 2021 07:00:00 GMT", status := 200
                  mimeType := none, text := some "John" }
    time := 7 }

/-- The document built from `eC10` with no masking. -/
def docC10a : Document :=
  match convert_har_entry_to_document eC10 (fun s => s) 540 with
  | .ok d => d
  | .error _ => default

/-- The document built from `eC10` with the rule `John ↦ xxxx`. -/
def docC10b : Document :=
  match convert_har_entry_to_document eC10
      (fun s => replace_string_by_mapping s [("John", "xxxx")]) 540 with
  | .ok d => d
  | .error _ => default

theorem claim10_witness :
    docC10a.request_url = docC10b.request_url ∧
    docC10a.request_path = docC10b.request_path ∧
    docC10a.request_query_string = docC10b.request_query_string :=
  have h := claim10_masking_frame eC10 (fun s => s)
    (fun s => replace_string_by_mapping s [("John", "xxxx")]) 540 docC10a docC10b rfl rfl
  ⟨h.2.2.1, h.2.2.2.2.1, h.2.2.2.2.2.1⟩

/-! ## C6 — the query-string mapping -/

theorem odAny_iff {κ α : Type} [DecidableEq κ] (d : List (κ × α)) (k : κ) :
    (d.any fun p => p.1 = k) = true ↔ k ∈ d.map Prod.fst := by
  rw [List.any_eq_true]
  constructor
  · rintro ⟨p, hp, hpk⟩
    exact List.mem_map.mpr ⟨p, hp, by simpa using hpk⟩
  · intro hm
    rcases List.mem_map.mp hm with ⟨p, hp, hpk⟩
    exact ⟨p, hp, by simp [hpk]⟩

theorem odInsert_keys {κ α : Type} [DecidableEq κ] (d : List (κ × α)) (k : κ) (v : α) :
    (odInsert d k v).map Prod.fst =
      if k ∈ d.map Prod.fst then d.map Prod.fst else d.map Prod.fst ++ [k] := by
  unfold odInsert
  by_cases hmem : k ∈ d.map Prod.fst
  · rw [if_pos ((odAny_iff d k).mpr hmem), if_pos hmem, List.map_map]
    apply List.map_congr_left
    intro p _
    by_cases hp : p.1 = k
    · simp [hp]
    · simp [hp]
  · rw [if_neg (fun hc => hmem ((odAny_iff d k).mp hc)), if_neg hmem, List.map_append]
    rfl

theorem odLookup_map_set {α : Type} (k k' : String) (v : α) :
    ∀ d : List (String × α),
      odLookup k' (d.map (fun p => if p.1 = k then (k, v) else p)) =
        if k' = k then (if k ∈ d.map Prod.fst then some v else none)
        else odLookup k' d := by
  intro d
  induction d with
  | nil => simp [odLookup]
  | cons p d' ih =>
    simp only [List.map_cons, odLookup]
    split_ifs <;> simp_all [odLookup, List.mem_cons] <;> tauto

theorem odLookup_append_single {α : Type} (k k' : String) (v : α) :
    ∀ d : List (String × α), k ∉ d.map Prod.fst →
      odLookup k' (d ++ [(k, v)]) = if k' = k then some v else odLookup k' d := by
  intro d
  induction d with
  | nil =>
    intro _
    simp only [List.nil_append, odLookup]
    by_cases h : k = k'
    · rw [if_pos h, if_pos h.symm]
    · rw [if_neg h, if_neg (fun hc => h hc.symm)]
  | cons p d' ih =>
    intro hmem
    simp only [List.map_cons, List.mem_cons, not_or] at hmem
    simp only [List.cons_append, odLookup, ih hmem.2]
    split_ifs <;> simp_all

theorem odInsert_lookup {α : Type} (d : List (String × α)) (k k' : String) (v : α) :
    odLookup k' (odInsert d k v) = if k' = k then some v else odLookup k' d := by
  by_cases hmem : k ∈ d.map Prod.fst
  · unfold odInsert
    rw [if_pos ((odAny_iff d k).mpr hmem)]
    simp [odLookup_map_set k k' v d, hmem]
  · unfold odInsert
    rw [if_neg (fun hc => hmem ((odAny_iff d k).mp hc))]
    exact odLookup_append_single k k' v d hmem

theorem odFold_lookup_aux {α : Type} (k : String) :
    ∀ (qs acc : List (String × α)),
      odLookup k (qs.foldl (fun a p => odInsert a p.1 p.2) acc) =
        (lastVal k qs).or (odLookup k acc) := by
  intro qs
  induction qs with
  | nil => intro acc; simp [lastVal]
  | cons q qs' ih =>
    intro acc
    rw [List.foldl_cons, ih, odInsert_lookup]
    by_cases hq : q.1 = k
    · have hl : lastVal k (q :: qs') = (lastVal k qs').or (some q.2) := by
        simp only [lastVal, List.filter_cons, hq, decide_True, if_true, List.getLast?_cons]
        cases hgl : (List.filter (fun p => decide (p.1 = k)) qs').getLast? with
        | none => simp [hgl, Option.or]
        | some p' => simp [hgl, Option.or]
      rw [hl, if_pos hq.symm, Option.or_assoc]
      rfl
    · have hl : lastVal k (q :: qs') = lastVal k qs' := by
        simp only [lastVal, List.filter_cons, hq]
        simp
      rw [hl, if_neg (fun hc => hq hc.symm)]

theorem dedupFirst_cons (k : String) (ks : List String) :
    dedupFirst (k :: ks) = k :: dedupFirst (ks.filter (fun x => x ≠ k)) := by
  rw [dedupFirst]

theorem dedupFirst_subset : ∀ (l : List String) (x : String), x ∈ dedupFirst l → x ∈ l
  | [], x => by simp [dedupFirst]
  | k :: ks, x => by
    rw [dedupFirst_cons]
    intro hx
    rcases List.mem_cons.mp hx with h | h
    · exact h ▸ List.mem_cons_self _ _
    · exact List.mem_cons_of_mem _
        (List.mem_of_mem_filter (dedupFirst_subset (ks.filter (fun x => x ≠ k)) x h))
termination_by l _ => l.length
decreasing_by
  simp only [List.length_cons]
  exact Nat.lt_succ_of_le (List.length_filter_le _ _)

theorem dedupFirst_nodup : ∀ l : List String, (dedupFirst l).Nodup
  | [] => by simp [dedupFirst]
  | k :: ks => by
    rw [dedupFirst_cons]
    refine List.nodup_cons.mpr ⟨?_, dedupFirst_nodup _⟩
    intro hk
    have h2 := List.of_mem_filter (dedupFirst_subset _ _ hk)
    simp at h2
termination_by l => l.length
decreasing_by
  simp only [List.length_cons]
  exact Nat.lt_succ_of_le (List.length_filter_le _ _)

theorem odFold_keys_aux :
    ∀ (qs acc : List (String × String)),
      (qs.foldl (fun a p => odInsert a p.1 p.2) acc).map Prod.fst =
        acc.map Prod.fst ++
          dedupFirst ((qs.map Prod.fst).filter (fun x => x ∉ acc.map Prod.fst)) := by
  intro qs
  induction qs with
  | nil => intro acc; simp [dedupFirst]
  | cons q qs' ih =>
    intro acc
    rw [List.foldl_cons, ih, odInsert_keys]
    by_cases hmem : q.1 ∈ acc.map Prod.fst
    · rw [if_pos hmem]
      simp only [List.map_cons, List.filter_cons]
      simp [hmem]
    · rw [if_neg hmem]
      simp only [List.map_cons, List.filter_cons]
      rw [if_pos (decide_eq_true hmem)]
      rw [dedupFirst_cons, List.append_assoc, List.singleton_append]
      have hfeq : List.filter (fun x => decide (x ∉ List.map Prod.fst acc ++ [q.1]))
            (List.map Prod.fst qs') =
          List.filter (fun a => decide (a ≠ q.1) && decide (a ∉ List.map Prod.fst acc))
            (List.map Prod.fst qs') := by
        apply List.filter_congr
        intro x _
        by_cases h1 : x ∈ acc.map Prod.fst <;> by_cases h2 : x = q.1 <;>
          simp [h1, h2, List.mem_append]
      rw [List.filter_filter, hfeq]

/-- C6: the built query mapping holds each distinct name exactly once, keyed
in the order of the names' first occurrence in the capture, and the value
stored under each name is the value of its last occurrence (last value
wins). -/
theorem claim6_query_mapping (qs : List (String × String)) :
    (parse_request_query_string qs).map Prod.fst = dedupFirst (qs.map Prod.fst) ∧
    ((parse_request_query_string qs).map Prod.fst).Nodup ∧
    (∀ k, odLookup k (parse_request_query_string qs) = lastVal k qs) := by
  have hkeys : (parse_request_query_string qs).map Prod.fst = dedupFirst (qs.map Prod.fst) := by
    unfold parse_request_query_string odFold
    rw [odFold_keys_aux qs []]
    simp
  refine ⟨hkeys, hkeys ▸ dedupFirst_nodup _, fun k => ?_⟩
  unfold parse_request_query_string odFold
  rw [odFold_lookup_aux k qs []]
  simp [odLookup]

/-! ## C9 part A: scanner/printer inverse lemmas -/

theorem char_ne_of_toNat_ne (a b : Char) (h : a.toNat ≠ b.toNat) : a ≠ b :=
  fun hc => h (congrArg Char.toNat hc)

theorem skipWs_idem : ∀ cs : List Char, skipWs (skipWs cs) = skipWs cs := by
  intro cs
  induction cs with
  | nil => rfl
  | cons c cs ih =>
    by_cases h : isWsChar c = true
    · simp [skipWs, h, ih]
    · simp [skipWs, h]

theorem skipWs_ws_pre : ∀ (ws cs : List Char), (∀ c ∈ ws, isWsChar c = true) →
    skipWs (ws ++ cs) = skipWs cs := by
  intro ws
  induction ws with
  | nil => intro cs _; rfl
  | cons w ws' ih =>
    intro cs h
    have hw := h w (by simp)
    simp [skipWs, hw, ih cs (fun c hc => h c (by simp [hc]))]

theorem jIndent_ws (lvl : Nat) : ∀ c ∈ jIndent lvl, isWsChar c = true := by
  intro c hc
  have := List.eq_of_mem_replicate hc
  subst this
  decide

theorem skipWs_not_ws (c : Char) (cs : List Char) (h : isWsChar c = false) :
    skipWs (c :: cs) = c :: cs := by
  simp [skipWs, h]

theorem parseValue_ws_pre (fuel : Nat) (ws cs : List Char)
    (h : ∀ c ∈ ws, isWsChar c = true) :
    parseValue fuel (ws ++ cs) = parseValue fuel cs := by
  cases fuel with
  | zero => rfl
  | succ f => simp only [parseValue, skipWs_ws_pre ws cs h]

theorem parseElems_ws_pre (fuel : Nat) (ws cs : List Char)
    (h : ∀ c ∈ ws, isWsChar c = true) :
    parseElems fuel (ws ++ cs) = parseElems fuel cs := by
  cases fuel with
  | zero => rfl
  | succ f => simp only [parseElems, parseValue_ws_pre f ws cs h]

theorem parseMembers_ws_pre (fuel : Nat) (ws cs : List Char)
    (h : ∀ c ∈ ws, isWsChar c = true) :
    parseMembers fuel (ws ++ cs) = parseMembers fuel cs := by
  cases fuel with
  | zero => rfl
  | succ f => simp only [parseMembers, skipWs_ws_pre ws cs h]

theorem hexVal_hexDig (m : Nat) (h : m < 16) : hexVal (hexDig m) = some m := by
  interval_cases m <;> decide

/-- One escaped character scans back to itself. -/
theorem parseStringBody_esc_char (c : Char) (tail : List Char) :
    parseStringBody (escCharJ c ++ tail) =
      (parseStringBody tail).map (fun p => (c :: p.1, p.2)) := by
  by_cases h1 : c = '"'
  · subst h1; rfl
  · by_cases h2 : c = '\\'
    · subst h2; rfl
    · by_cases h3 : c = '\x08'
      · subst h3; rfl
      · by_cases h4 : c = '\x09'
        · subst h4; rfl
        · by_cases h5 : c = '\x0a'
          · subst h5; rfl
          · by_cases h6 : c = '\x0c'
            · subst h6; rfl
            · by_cases h7 : c = '\x0d'
              · subst h7; rfl
              · by_cases h8 : c.toNat < 32
                · have hdiv : c.toNat / 16 < 16 := by omega
                  have hmod : c.toNat % 16 < 16 := by omega
                  simp only [escCharJ, if_neg h1, if_neg h2, if_neg h3, if_neg h4, if_neg h5,
                    if_neg h6, if_neg h7, if_pos h8, List.cons_append, List.nil_append]
                  rw [show parseStringBody ('\\' :: 'u' :: '0' :: '0' :: hexDig (c.toNat / 16)
                        :: hexDig (c.toNat % 16) :: tail) =
                      parseEscape ('u' :: '0' :: '0' :: hexDig (c.toNat / 16)
                        :: hexDig (c.toNat % 16) :: tail) from rfl]
                  simp only [parseEscape]
                  rw [show hexVal '0' = some 0 from rfl, hexVal_hexDig _ hdiv,
                    hexVal_hexDig _ hmod]
                  have hN : ((0 * 16 + 0) * 16 + c.toNat / 16) * 16 + c.toNat % 16 = c.toNat := by
                    omega
                  dsimp only
                  rw [hN, if_pos (Or.inl (by omega : c.toNat < 0xd800)), Char.ofNat_toNat]
                · simp only [escCharJ, if_neg h1, if_neg h2, if_neg h3, if_neg h4, if_neg h5,
                    if_neg h6, if_neg h7, if_neg h8, List.cons_append, List.nil_append]
                  simp only [parseStringBody, if_neg h1, if_neg h2, if_neg h8]

/-- The string scanner inverts the printer's escaping. -/
theorem parseStringBody_esc : ∀ (s : List Char) (rest : List Char),
    parseStringBody (escStringJ s ++ '"' :: rest) = some (s, rest) := by
  intro s
  induction s with
  | nil => intro rest; rfl
  | cons c cs ih =>
    intro rest
    simp only [escStringJ, List.append_assoc]
    rw [parseStringBody_esc_char c (escStringJ cs ++ '"' :: rest), ih rest]
    rfl

/-- The character after a printed numeral must not extend it. -/
def numBoundary : List Char → Prop
  | [] => True
  | c :: _ => isDigitChar c = false ∧ c ≠ '.' ∧ c ≠ 'e' ∧ c ≠ 'E'

theorem char_ne_of_lit (c : Char) (m : Nat) (b : Char) (hb : b.toNat = m)
    (h : c.toNat ≠ m) : c ≠ b :=
  fun hc => h (by rw [hc, hb])

theorem digitChar_facts (c : Char) (h : isDigitChar c = true) :
    isWsChar c = false ∧ c ≠ 'n' ∧ c ≠ 't' ∧ c ≠ 'f' ∧ c ≠ '"' ∧ c ≠ '[' ∧ c ≠ '\x7b' ∧
      c ≠ ']' ∧ c ≠ '\x7d' ∧ c ≠ ',' ∧ c ≠ '-' := by
  have ht : 48 ≤ c.toNat ∧ c.toNat ≤ 57 := by
    simpa [isDigitChar, Bool.and_eq_true, decide_eq_true_eq] using h
  refine ⟨?_, ?_, ?_, ?_, ?_, ?_, ?_, ?_, ?_, ?_, ?_⟩
  · simp only [isWsChar, Bool.or_eq_false_iff, decide_eq_false_iff_not]
    exact ⟨⟨⟨char_ne_of_lit c 32 ' ' (by decide) (by omega),
      char_ne_of_lit c 9 '\x09' (by decide) (by omega)⟩,
      char_ne_of_lit c 10 '\x0a' (by decide) (by omega)⟩,
      char_ne_of_lit c 13 '\x0d' (by decide) (by omega)⟩
  · exact char_ne_of_lit c 110 'n' (by decide) (by omega)
  · exact char_ne_of_lit c 116 't' (by decide) (by omega)
  · exact char_ne_of_lit c 102 'f' (by decide) (by omega)
  · exact char_ne_of_lit c 34 '"' (by decide) (by omega)
  · exact char_ne_of_lit c 91 '[' (by decide) (by omega)
  · exact char_ne_of_lit c 123 '\x7b' (by decide) (by omega)
  · exact char_ne_of_lit c 93 ']' (by decide) (by omega)
  · exact char_ne_of_lit c 125 '\x7d' (by decide) (by omega)
  · exact char_ne_of_lit c 44 ',' (by decide) (by omega)
  · exact char_ne_of_lit c 45 '-' (by decide) (by omega)

theorem takeWhile_all_append (p : Char → Bool) :
    ∀ (l r : List Char), (∀ c ∈ l, p c = true) →
      (∀ c r2, r = c :: r2 → p c = false) →
      List.takeWhile p (l ++ r) = l ∧ List.dropWhile p (l ++ r) = r := by
  intro l
  induction l with
  | nil =>
    intro r _ hr
    cases r with
    | nil => simp
    | cons c r2 => simp [List.takeWhile_cons, List.dropWhile_cons, hr c r2 rfl]
  | cons a l' ih =>
    intro r hl hr
    have ha := hl a (by simp)
    have hrec := ih r (fun c hc => hl c (by simp [hc])) hr
    simp [List.takeWhile_cons, List.dropWhile_cons, ha, hrec.1, hrec.2]

theorem foldr_digits_eq_ofDigits : ∀ l : List Nat,
    List.foldr (fun d a => 10 * a + d) 0 l = Nat.ofDigits 10 l := by
  intro l
  induction l with
  | nil => simp [Nat.ofDigits]
  | cons d l ih => simp [Nat.ofDigits, ih]; ring

theorem foldl_digit_chars : ∀ (l : List Nat) (a : Nat), (∀ d ∈ l, d < 10) →
    List.foldl (fun a c => 10 * a + (c.toNat - 48)) a
        (l.map (fun d => Char.ofNat (48 + d))) =
      List.foldl (fun a d => 10 * a + d) a l := by
  intro l
  induction l with
  | nil => intro a _; rfl
  | cons d l' ih =>
    intro a hl
    have hd := hl d (by simp)
    simp only [List.map_cons, List.foldl_cons]
    rw [char_toNat_ofNat_valid (48 + d) (by omega)]
    rw [show 48 + d - 48 = d by omega]
    exact ih _ (fun x hx => hl x (by simp [hx]))

theorem digitsVal_printNat (n : Nat) : digitsVal (printNat n) = n := by
  by_cases hn : n = 0
  · subst hn; decide
  · rw [printNat_eq n hn]
    unfold digitsVal
    rw [← List.map_reverse]
    rw [foldl_digit_chars _ 0
      (fun d hd => Nat.digits_lt_base (by norm_num) (List.mem_reverse.mp hd))]
    rw [List.foldl_reverse, foldr_digits_eq_ofDigits, Nat.ofDigits_digits]

theorem printNat_all_digits (n : Nat) : ∀ c ∈ printNat n, isDigitChar c = true := by
  intro c hc
  by_cases hn : n = 0
  · subst hn; simp [printNat] at hc; subst hc; decide
  · rw [printNat_eq n hn] at hc
    rcases List.mem_map.mp (List.mem_reverse.mp hc) with ⟨d, hd, hcd⟩
    have hlt : d < 10 := Nat.digits_lt_base (by norm_num) hd
    subst hcd
    simp only [isDigitChar, Bool.and_eq_true, decide_eq_true_eq]
    rw [char_toNat_ofNat_valid (48 + d) (by omega)]
    omega

theorem printNat_head (n : Nat) :
    ∃ c cs2, printNat n = c :: cs2 ∧ isDigitChar c = true ∧ (n ≠ 0 → c ≠ '0') := by
  by_cases hn : n = 0
  · subst hn
    exact ⟨'0', [], rfl, by decide, fun h => absurd rfl h⟩
  · have hne := printNat_ne_nil n
    cases hpr : printNat n with
    | nil => exact absurd hpr hne
    | cons c cs2 =>
      refine ⟨c, cs2, rfl, printNat_all_digits n c (hpr ▸ List.mem_cons_self c cs2), fun _ => ?_⟩
      have hh : (printNat n).head? = some c := by rw [hpr]; rfl
      rw [printNat_eq n hn, ← List.map_reverse, List.head?_map, List.head?_reverse] at hh
      have hdne : Nat.digits 10 n ≠ [] := Nat.digits_ne_nil_iff_ne_zero.mpr hn
      rw [List.getLast?_eq_getLast _ hdne] at hh
      have hlast := Nat.getLast_digit_ne_zero 10 hn
      have hlt : (Nat.digits 10 n).getLast hdne < 10 :=
        Nat.digits_lt_base (by norm_num) (List.getLast_mem hdne)
      have hceq : c = Char.ofNat (48 + (Nat.digits 10 n).getLast hdne) := by
        simpa using hh.symm
      subst hceq
      apply char_ne_of_lit _ 48 '0' (by decide)
      rw [char_toNat_ofNat_valid _ (by omega)]
      omega

theorem parseUInt_printNat (m : Nat) (rest : List Char) (hb : numBoundary rest) :
    parseUInt (printNat m ++ rest) = some (m, rest) := by
  obtain ⟨c, cs2, hpr, hcd, hc0⟩ := printNat_head m
  have hbr : ∀ c2 r2, rest = c2 :: r2 → isDigitChar c2 = false := by
    intro c2 r2 hr
    rw [hr] at hb
    exact hb.1
  have htw := takeWhile_all_append isDigitChar (printNat m) rest (printNat_all_digits m) hbr
  rw [hpr]
  simp only [List.cons_append, parseUInt]
  rw [if_pos hcd]
  rw [show c :: (cs2 ++ rest) = printNat m ++ rest by rw [hpr]; rfl]
  rw [htw.1, htw.2]
  have hlen : ¬(c = '0' ∧ 1 < (printNat m).length) := by
    rintro ⟨hcz, hlen⟩
    by_cases hm : m = 0
    · subst hm; simp [printNat] at hlen
    · exact hc0 hm hcz
  rw [if_neg hlen]
  cases rest with
  | nil => simp [digitsVal_printNat]
  | cons d ds =>
    dsimp only
    obtain ⟨h1, h2, h3, h4⟩ := hb
    rw [if_neg (by rintro (h | h | h) <;> [exact h2 h; exact h3 h; exact h4 h]),
      digitsVal_printNat]

theorem parseNumber_printInt (n : Int) (rest : List Char) (hb : numBoundary rest) :
    parseNumber (printInt n ++ rest) = some (n, rest) := by
  unfold printInt
  by_cases hneg : n < 0
  · rw [if_pos hneg, List.cons_append]
    rw [show parseNumber ('-' :: (printNat n.natAbs ++ rest)) =
        (parseUInt (printNat n.natAbs ++ rest)).map (fun p => (-(p.1 : Int), p.2)) from rfl]
    rw [parseUInt_printNat _ _ hb]
    simp only [Option.map_some']
    rw [show (-(↑(n.natAbs) : Int)) = n by omega]
  · rw [if_neg hneg]
    obtain ⟨c, cs2, hpr, hcd, _⟩ := printNat_head n.natAbs
    rw [hpr]
    simp only [List.cons_append, parseNumber]
    have hfacts := digitChar_facts c hcd
    rw [if_neg hfacts.2.2.2.2.2.2.2.2.2.2]
    rw [show c :: (cs2 ++ rest) = printNat n.natAbs ++ rest by rw [hpr]; rfl]
    rw [parseUInt_printNat _ _ hb]
    simp only [Option.map_some']
    rw [show ((↑(n.natAbs) : Int)) = n by omega]
/-- The value scanner on a printed numeral. -/
theorem parseValue_num (fuel : Nat) (n : Int) (rest : List Char) (hb : numBoundary rest) :
    parseValue (fuel + 1) (printInt n ++ rest) = some (Json.num n, rest) := by
  have hhead : ∃ c cs2, printInt n = c :: cs2 ∧ (c = '-' ∨ isDigitChar c = true) := by
    unfold printInt
    by_cases hneg : n < 0
    · rw [if_pos hneg]; exact ⟨'-', _, rfl, Or.inl rfl⟩
    · rw [if_neg hneg]
      obtain ⟨c, cs2, hpr, hcd, _⟩ := printNat_head n.natAbs
      exact ⟨c, cs2, hpr, Or.inr hcd⟩
  obtain ⟨c, cs2, hpr, hc⟩ := hhead
  have hne : c ≠ 'n' ∧ c ≠ 't' ∧ c ≠ 'f' ∧ c ≠ '"' ∧ c ≠ '[' ∧ c ≠ '\x7b' ∧
      isWsChar c = false := by
    rcases hc with hc | hc
    · subst hc
      exact ⟨by decide, by decide, by decide, by decide, by decide, by decide, by decide⟩
    · have hf := digitChar_facts c hc
      exact ⟨hf.2.1, hf.2.2.1, hf.2.2.2.1, hf.2.2.2.2.1, hf.2.2.2.2.2.1,
        hf.2.2.2.2.2.2.1, hf.1⟩
  rw [hpr]
  simp only [List.cons_append, parseValue]
  rw [skipWs_not_ws c _ hne.2.2.2.2.2.2]
  dsimp only
  rw [if_neg hne.1, if_neg hne.2.1, if_neg hne.2.2.1, if_neg hne.2.2.2.1,
    if_neg hne.2.2.2.2.1, if_neg hne.2.2.2.2.2.1, if_pos hc]
  rw [show c :: (cs2 ++ rest) = printInt n ++ rest by rw [hpr]; rfl]
  rw [parseNumber_printInt n rest hb]
  rfl

/-! ## C9 part C: well-formed values and the scanner's output -/

mutual

/-- A value whose objects carry distinct keys at every level — the shape every
`json.loads` result has. -/
inductive WfJ : Json → Prop where
  | null : WfJ .null
  | bool (b : Bool) : WfJ (.bool b)
  | num (n : Int) : WfJ (.num n)
  | str (s : List Char) : WfJ (.str s)
  | arr (xs : JsonElems) : WfE xs → WfJ (.arr xs)
  | obj (ms : JsonMembers) : (jmKeys ms).Nodup → WfM ms → WfJ (.obj ms)

/-- All elements well-formed. -/
inductive WfE : JsonElems → Prop where
  | nil : WfE .nil
  | cons (x : Json) (xs : JsonElems) : WfJ x → WfE xs → WfE (.cons x xs)

/-- All member values well-formed. -/
inductive WfM : JsonMembers → Prop where
  | nil : WfM .nil
  | cons (k : List Char) (v : Json) (ms : JsonMembers) : WfJ v → WfM ms → WfM (.cons k v ms)

end

theorem jmHasKey_iff : ∀ (ms : JsonMembers) (k : List Char),
    jmHasKey ms k = true ↔ k ∈ jmKeys ms
  | .nil, k => by simp [jmHasKey, jmKeys]
  | .cons k0 v0 ms', k => by
    have ih := jmHasKey_iff ms' k
    simp only [jmHasKey, jmKeys, List.mem_cons, Bool.or_eq_true, decide_eq_true_eq, ih]
    constructor
    · rintro (h | h)
      · exact Or.inl h.symm
      · exact Or.inr h
    · rintro (h | h)
      · exact Or.inl h.symm
      · exact Or.inr h

theorem jmKeys_setAll : ∀ (ms : JsonMembers) (k : List Char) (v : Json),
    jmKeys (jmSetAll ms k v) = jmKeys ms
  | .nil, _, _ => rfl
  | .cons k0 v0 ms', k, v => by
    by_cases h : k0 = k <;> simp [jmSetAll, jmKeys, h, jmKeys_setAll ms' k v]

theorem jmKeys_append : ∀ (ms t : JsonMembers),
    jmKeys (jmAppend ms t) = jmKeys ms ++ jmKeys t
  | .nil, t => rfl
  | .cons k0 v0 ms', t => by simp [jmAppend, jmKeys, jmKeys_append ms' t]

theorem jmKeys_insert (ms : JsonMembers) (k : List Char) (v : Json) :
    jmKeys (jmInsert ms k v) =
      if k ∈ jmKeys ms then jmKeys ms else jmKeys ms ++ [k] := by
  unfold jmInsert
  by_cases h : k ∈ jmKeys ms
  · rw [if_pos ((jmHasKey_iff ms k).mpr h), if_pos h, jmKeys_setAll]
  · rw [if_neg (fun hc => h ((jmHasKey_iff ms k).mp hc)), if_neg h, jmKeys_append]
    rfl

theorem WfM_setAll : ∀ (ms : JsonMembers) (k : List Char) (v : Json),
    WfM ms → WfJ v → WfM (jmSetAll ms k v)
  | .nil, _, _, _, _ => WfM.nil
  | .cons k0 v0 ms', k, v, hms, hv => by
    cases hms with
    | cons _ _ _ hv0 hms' =>
      by_cases h : k0 = k
      · simp only [jmSetAll, if_pos h]
        exact WfM.cons _ _ _ hv (WfM_setAll ms' k v hms' hv)
      · simp only [jmSetAll, if_neg h]
        exact WfM.cons _ _ _ hv0 (WfM_setAll ms' k v hms' hv)

theorem WfM_append : ∀ (ms t : JsonMembers), WfM ms → WfM t → WfM (jmAppend ms t)
  | .nil, _, _, ht => ht
  | .cons k0 v0 ms', t, hms, ht => by
    cases hms with
    | cons _ _ _ hv0 hms' => exact WfM.cons _ _ _ hv0 (WfM_append ms' t hms' ht)

theorem WfM_insert (ms : JsonMembers) (k : List Char) (v : Json)
    (hms : WfM ms) (hv : WfJ v) : WfM (jmInsert ms k v) := by
  unfold jmInsert
  split
  · exact WfM_setAll ms k v hms hv
  · exact WfM_append _ _ hms (WfM.cons _ _ _ hv WfM.nil)

theorem jmKeys_insert_nodup (ms : JsonMembers) (k : List Char) (v : Json)
    (h : (jmKeys ms).Nodup) : (jmKeys (jmInsert ms k v)).Nodup := by
  rw [jmKeys_insert]
  by_cases hm : k ∈ jmKeys ms
  · rw [if_pos hm]; exact h
  · rw [if_neg hm]
    simp [List.nodup_append, h, hm]

theorem jmFoldInto_wf : ∀ (ms acc : JsonMembers), WfM acc → (jmKeys acc).Nodup → WfM ms →
    WfM (jmFoldInto acc ms) ∧ (jmKeys (jmFoldInto acc ms)).Nodup
  | .nil, acc, ha, hn, _ => ⟨ha, hn⟩
  | .cons k v ms', acc, ha, hn, hms => by
    cases hms with
    | cons _ _ _ hv hms' =>
      exact jmFoldInto_wf ms' (jmInsert acc k v) (WfM_insert acc k v ha hv)
        (jmKeys_insert_nodup acc k v hn) hms'

theorem jmFold_wf (ms : JsonMembers) (h : WfM ms) :
    WfM (jmFold ms) ∧ (jmKeys (jmFold ms)).Nodup :=
  jmFoldInto_wf ms .nil WfM.nil (by simp [jmKeys]) h

theorem jmAppend_nil : ∀ (ms : JsonMembers), jmAppend ms .nil = ms
  | .nil => rfl
  | .cons k v ms' => by simp [jmAppend, jmAppend_nil ms']

theorem jmAppend_assoc : ∀ (a b c : JsonMembers),
    jmAppend (jmAppend a b) c = jmAppend a (jmAppend b c)
  | .nil, _, _ => rfl
  | .cons k v a', b, c => by simp [jmAppend, jmAppend_assoc a' b c]

theorem jmFoldInto_nodup_eq : ∀ (ms acc : JsonMembers),
    (jmKeys acc ++ jmKeys ms).Nodup → jmFoldInto acc ms = jmAppend acc ms
  | .nil, acc, _ => by rw [jmAppend_nil]; rfl
  | .cons k v ms', acc, hn => by
    have hkacc : k ∉ jmKeys acc := by
      intro hk
      have := List.disjoint_of_nodup_append hn
      exact this hk (by simp [jmKeys])
    have hstep : jmInsert acc k v = jmAppend acc (.cons k v .nil) := by
      unfold jmInsert
      rw [if_neg (fun hc => hkacc ((jmHasKey_iff acc k).mp hc))]
    have hn2 : (jmKeys (jmAppend acc (.cons k v .nil)) ++ jmKeys ms').Nodup := by
      rw [jmKeys_append]
      simp only [jmKeys] at hn ⊢
      simp only [List.append_assoc, List.singleton_append]
      exact hn
    show jmFoldInto (jmInsert acc k v) ms' = jmAppend acc (.cons k v ms')
    rw [hstep, jmFoldInto_nodup_eq ms' (jmAppend acc (.cons k v .nil)) hn2,
      jmAppend_assoc]
    rfl

theorem jmFold_nodup_eq (ms : JsonMembers) (h : (jmKeys ms).Nodup) : jmFold ms = ms := by
  unfold jmFold
  rw [jmFoldInto_nodup_eq ms .nil (by simpa [jmKeys] using h)]
  rfl

/-! ## C9 part D: the round trip -/

/-- The first character of a printed value: never whitespace, never a
closing bracket or brace, never a comma. -/
theorem print_head (v : Json) (lvl : Nat) :
    ∃ c cs, printJson v lvl = c :: cs ∧ isWsChar c = false ∧ c ≠ ']' ∧ c ≠ '\x7d' := by
  cases v with
  | null => exact ⟨'n', _, rfl, by decide, by decide, by decide⟩
  | bool b =>
    cases b with
    | false => exact ⟨'f', _, rfl, by decide, by decide, by decide⟩
    | true => exact ⟨'t', _, rfl, by decide, by decide, by decide⟩
  | num n =>
    simp only [printJson, printInt]
    by_cases hneg : n < 0
    · exact ⟨'-', _, by rw [if_pos hneg], by decide, by decide, by decide⟩
    · obtain ⟨c, cs2, hpr, hcd, _⟩ := printNat_head n.natAbs
      have hfacts := digitChar_facts c hcd
      exact ⟨c, cs2, by rw [if_neg hneg, hpr], hfacts.1,
        hfacts.2.2.2.2.2.2.2.1, hfacts.2.2.2.2.2.2.2.2.1⟩
  | str s => exact ⟨'"', _, rfl, by decide, by decide, by decide⟩
  | arr xs =>
    cases xs with
    | nil => exact ⟨'[', _, rfl, by decide, by decide, by decide⟩
    | cons x xs' => exact ⟨'[', _, rfl, by decide, by decide, by decide⟩
  | obj ms =>
    cases ms with
    | nil => exact ⟨'\x7b', _, rfl, by decide, by decide, by decide⟩
    | cons k v' ms' => exact ⟨'\x7b', _, rfl, by decide, by decide, by decide⟩

theorem numBoundary_nl (l : List Char) : numBoundary ('\x0a' :: l) :=
  ⟨by decide, by decide, by decide, by decide⟩

theorem numBoundary_comma (l : List Char) : numBoundary (',' :: l) :=
  ⟨by decide, by decide, by decide, by decide⟩

theorem nl_indent_ws (lvl : Nat) : ∀ c ∈ '\x0a' :: jIndent lvl, isWsChar c = true := by
  intro c hc
  rcases List.mem_cons.mp hc with h | h
  · subst h; decide
  · exact jIndent_ws lvl c h

theorem nl_tail_ws (tail : List Char) (ht : ∀ c ∈ tail, isWsChar c = true) :
    ∀ c ∈ '\x0a' :: tail, isWsChar c = true := by
  intro c hc
  rcases List.mem_cons.mp hc with h | h
  · subst h; decide
  · exact ht c h

mutual

/-- The scanner inverts the printer on a well-formed value. -/
theorem rt_val (v : Json) (lvl fuel : Nat) (rest : List Char)
    (hw : WfJ v) (hf : (printJson v lvl).length < fuel) (hb : numBoundary rest) :
    parseValue fuel (printJson v lvl ++ rest) = some (v, rest) := by
  cases fuel with
  | zero => exact absurd hf (Nat.not_lt_zero _)
  | succ F =>
    cases v with
    | null => exact rfl
    | bool b => cases b with
      | false => exact rfl
      | true => exact rfl
    | num n =>
      simp only [printJson]
      exact parseValue_num F n rest hb
    | str s =>
      simp only [printJson, List.cons_append, List.append_assoc, List.singleton_append, List.nil_append]
      rw [show parseValue (F + 1) ('"' :: (escStringJ s ++ '"' :: rest)) =
          (parseStringBody (escStringJ s ++ '"' :: rest)).map
            (fun p => (Json.str p.1, p.2)) from rfl]
      rw [parseStringBody_esc s rest]
      rfl
    | arr xs =>
      cases xs with
      | nil => exact rfl
      | cons x xs' =>
        obtain ⟨hx, hxs⟩ : WfJ x ∧ WfE xs' := by
          cases hw with
          | arr _ he => cases he with
            | cons _ _ hx hxs => exact ⟨hx, hxs⟩
        have hlen : (printJson x (lvl + 1)).length + (printItems xs' (lvl + 1)).length + 1
            < F := by
          simp only [printJson, List.length_cons, List.length_append,
            List.length_singleton] at hf
          omega
        obtain ⟨d, ds, hhead, hdws, hdbr, _⟩ := print_head x (lvl + 1)
        have hskip : skipWs ('\x0a' :: (jIndent (lvl + 1) ++ (printJson x (lvl + 1) ++
              (printItems xs' (lvl + 1) ++ '\x0a' :: (jIndent lvl ++ ']' :: rest))))) =
            d :: (ds ++ (printItems xs' (lvl + 1) ++
              '\x0a' :: (jIndent lvl ++ ']' :: rest))) := by
          rw [show '\x0a' :: (jIndent (lvl + 1) ++ (printJson x (lvl + 1) ++
                (printItems xs' (lvl + 1) ++ '\x0a' :: (jIndent lvl ++ ']' :: rest)))) =
              ('\x0a' :: jIndent (lvl + 1)) ++ (printJson x (lvl + 1) ++
                (printItems xs' (lvl + 1) ++ '\x0a' :: (jIndent lvl ++ ']' :: rest)))
              from rfl]
          rw [skipWs_ws_pre _ _ (nl_indent_ws (lvl + 1)), hhead, List.cons_append,
            skipWs_not_ws d _ hdws]
        simp only [printJson, List.cons_append, List.append_assoc, List.singleton_append, List.nil_append]
        simp only [parseValue]
        rw [skipWs_not_ws '[' _ (by decide)]
        dsimp only
        rw [if_neg (show ¬('[' : Char) = 'n' by decide),
          if_neg (show ¬('[' : Char) = 't' by decide),
          if_neg (show ¬('[' : Char) = 'f' by decide),
          if_neg (show ¬('[' : Char) = '"' by decide),
          if_pos (rfl : ('[' : Char) = '[')]
        rw [hskip]
        dsimp only
        rw [if_neg hdbr]
        rw [show d :: (ds ++ (printItems xs' (lvl + 1) ++
              '\x0a' :: (jIndent lvl ++ ']' :: rest))) =
            printJson x (lvl + 1) ++ (printItems xs' (lvl + 1) ++
              '\x0a' :: (jIndent lvl ++ ']' :: rest)) by rw [hhead]; rfl]
        rw [rt_elems x xs' (lvl + 1) F (jIndent lvl) rest hx hxs hlen (jIndent_ws lvl)]
        rfl
    | obj ms =>
      cases ms with
      | nil => exact rfl
      | cons k vm msm =>
        obtain ⟨hnd, hv, hms⟩ :
            (jmKeys (.cons k vm msm)).Nodup ∧ WfJ vm ∧ WfM msm := by
          cases hw with
          | obj _ hnd hm => cases hm with
            | cons _ _ _ hv hms => exact ⟨hnd, hv, hms⟩
        have hlen : (printKey k).length + (printJson vm (lvl + 1)).length +
            (printMembersTail msm (lvl + 1)).length + 1 < F := by
          simp only [printJson, printKey, List.length_cons, List.length_append,
            List.length_singleton] at hf ⊢
          omega
        have hkey : printKey k ++ (printJson vm (lvl + 1) ++
              (printMembersTail msm (lvl + 1) ++ '\x0a' :: (jIndent lvl ++ '\x7d' :: rest))) =
            '"' :: (escStringJ k ++ ('"' :: ':' :: ' ' :: (printJson vm (lvl + 1) ++
              (printMembersTail msm (lvl + 1) ++
                '\x0a' :: (jIndent lvl ++ '\x7d' :: rest))))) := by
          simp [printKey]
        have hskip : skipWs ('\x0a' :: (jIndent (lvl + 1) ++ (printKey k ++
              (printJson vm (lvl + 1) ++ (printMembersTail msm (lvl + 1) ++
                '\x0a' :: (jIndent lvl ++ '\x7d' :: rest)))))) =
            '"' :: (escStringJ k ++ ('"' :: ':' :: ' ' :: (printJson vm (lvl + 1) ++
              (printMembersTail msm (lvl + 1) ++
                '\x0a' :: (jIndent lvl ++ '\x7d' :: rest))))) := by
          rw [show '\x0a' :: (jIndent (lvl + 1) ++ (printKey k ++
                (printJson vm (lvl + 1) ++ (printMembersTail msm (lvl + 1) ++
                  '\x0a' :: (jIndent lvl ++ '\x7d' :: rest))))) =
              ('\x0a' :: jIndent (lvl + 1)) ++ (printKey k ++
                (printJson vm (lvl + 1) ++ (printMembersTail msm (lvl + 1) ++
                  '\x0a' :: (jIndent lvl ++ '\x7d' :: rest)))) from rfl]
          rw [skipWs_ws_pre _ _ (nl_indent_ws (lvl + 1)), hkey,
            skipWs_not_ws '"' _ (by decide)]
        simp only [printJson, List.cons_append, List.append_assoc, List.singleton_append, List.nil_append]
        simp only [parseValue]
        rw [skipWs_not_ws '\x7b' _ (by decide)]
        dsimp only
        rw [if_neg (show ¬('\x7b' : Char) = 'n' by decide),
          if_neg (show ¬('\x7b' : Char) = 't' by decide),
          if_neg (show ¬('\x7b' : Char) = 'f' by decide),
          if_neg (show ¬('\x7b' : Char) = '"' by decide),
          if_neg (show ¬('\x7b' : Char) = '[' by decide),
          if_pos (rfl : ('\x7b' : Char) = '\x7b')]
        rw [hskip]
        dsimp only
        rw [if_neg (show ¬('"' : Char) = '\x7d' by decide)]
        rw [← hkey]
        rw [rt_members k vm msm (lvl + 1) F (jIndent lvl) rest hv hms hlen (jIndent_ws lvl)]
        simp only [Option.map_some']
        rw [jmFold_nodup_eq _ hnd]
termination_by sizeOf v

/-- The scanner inverts the printer on a non-empty printed element list
followed by the closing bracket. -/
theorem rt_elems (x : Json) (xs : JsonElems) (lvl fuel : Nat) (tail rest : List Char)
    (hx : WfJ x) (hxs : WfE xs)
    (hfl : (printJson x lvl).length + (printItems xs lvl).length + 1 < fuel)
    (htail : ∀ c ∈ tail, isWsChar c = true) :
    parseElems fuel (printJson x lvl ++ (printItems xs lvl ++
      '\x0a' :: (tail ++ ']' :: rest))) = some (JsonElems.cons x xs, rest) := by
  cases fuel with
  | zero => exact absurd hfl (Nat.not_lt_zero _)
  | succ F =>
    have hnb : numBoundary (printItems xs lvl ++ '\x0a' :: (tail ++ ']' :: rest)) := by
      cases xs with
      | nil => exact numBoundary_nl _
      | cons y ys => exact numBoundary_comma _
    simp only [parseElems]
    rw [rt_val x lvl F _ hx (by omega) hnb]
    dsimp only
    cases xs with
    | nil =>
      simp only [printItems, List.nil_append]
      rw [show '\x0a' :: (tail ++ ']' :: rest) = ('\x0a' :: tail) ++ (']' :: rest) from rfl,
        skipWs_ws_pre _ _ (nl_tail_ws tail htail), skipWs_not_ws ']' _ (by decide)]
      dsimp only
      rw [if_neg (show ¬(']' : Char) = ',' by decide), if_pos (rfl : (']' : Char) = ']')]
    | cons y ys =>
      obtain ⟨hy, hys⟩ : WfJ y ∧ WfE ys := by
        cases hxs with
        | cons _ _ hy hys => exact ⟨hy, hys⟩
      have hxpos : 0 < (printJson x lvl).length :=
        List.length_pos.mpr (printJson_ne_nil x lvl)
      have hlen2 : (printJson y lvl).length + (printItems ys lvl).length + 1 < F := by
        simp only [printItems, List.length_cons, List.length_append] at hfl
        omega
      simp only [printItems, List.cons_append, List.append_assoc]
      rw [skipWs_not_ws ',' _ (by decide)]
      dsimp only
      rw [if_pos (rfl : (',' : Char) = ',')]
      rw [show '\x0a' :: (jIndent lvl ++ (printJson y lvl ++ (printItems ys lvl ++
            '\x0a' :: (tail ++ ']' :: rest)))) =
          ('\x0a' :: jIndent lvl) ++ (printJson y lvl ++ (printItems ys lvl ++
            '\x0a' :: (tail ++ ']' :: rest))) from rfl,
        parseElems_ws_pre F _ _ (nl_indent_ws lvl)]
      rw [rt_elems y ys lvl F tail rest hy hys hlen2 htail]
      rfl
termination_by sizeOf x + sizeOf xs + 1

/-- The scanner inverts the printer on a non-empty printed member list
followed by the closing brace. -/
theorem rt_members (k : List Char) (v : Json) (ms : JsonMembers) (lvl fuel : Nat)
    (tail rest : List Char) (hv : WfJ v) (hms : WfM ms)
    (hfl : (printKey k).length + (printJson v lvl).length +
      (printMembersTail ms lvl).length + 1 < fuel)
    (htail : ∀ c ∈ tail, isWsChar c = true) :
    parseMembers fuel (printKey k ++ (printJson v lvl ++ (printMembersTail ms lvl ++
      '\x0a' :: (tail ++ '\x7d' :: rest)))) = some (JsonMembers.cons k v ms, rest) := by
  cases fuel with
  | zero => exact absurd hfl (Nat.not_lt_zero _)
  | succ F =>
    have hnb : numBoundary (printMembersTail ms lvl ++
        '\x0a' :: (tail ++ '\x7d' :: rest)) := by
      cases ms with
      | nil => exact numBoundary_nl _
      | cons k2 v2 ms2 => exact numBoundary_comma _
    have hkey : printKey k ++ (printJson v lvl ++ (printMembersTail ms lvl ++
          '\x0a' :: (tail ++ '\x7d' :: rest))) =
        '"' :: (escStringJ k ++ ('"' :: ':' :: ' ' :: (printJson v lvl ++
          (printMembersTail ms lvl ++ '\x0a' :: (tail ++ '\x7d' :: rest))))) := by
      simp [printKey]
    simp only [parseMembers]
    rw [hkey, skipWs_not_ws '"' _ (by decide)]
    dsimp only
    rw [if_pos (rfl : ('"' : Char) = '"')]
    rw [parseStringBody_esc k _]
    dsimp only
    rw [skipWs_not_ws ':' _ (by decide)]
    dsimp only
    rw [if_pos (rfl : (':' : Char) = ':')]
    rw [show ' ' :: (printJson v lvl ++ (printMembersTail ms lvl ++
          '\x0a' :: (tail ++ '\x7d' :: rest))) =
        [' '] ++ (printJson v lvl ++ (printMembersTail ms lvl ++
          '\x0a' :: (tail ++ '\x7d' :: rest))) from rfl,
      parseValue_ws_pre F _ _ (by decide)]
    rw [rt_val v lvl F _ hv (by omega) hnb]
    dsimp only
    cases ms with
    | nil =>
      simp only [printMembersTail, List.nil_append]
      rw [show '\x0a' :: (tail ++ '\x7d' :: rest) =
          ('\x0a' :: tail) ++ ('\x7d' :: rest) from rfl,
        skipWs_ws_pre _ _ (nl_tail_ws tail htail), skipWs_not_ws '\x7d' _ (by decide)]
      dsimp only
      rw [if_neg (show ¬('\x7d' : Char) = ',' by decide),
        if_pos (rfl : ('\x7d' : Char) = '\x7d')]
    | cons k2 v2 ms2 =>
      obtain ⟨hv2, hms2⟩ : WfJ v2 ∧ WfM ms2 := by
        cases hms with
        | cons _ _ _ hv2 hms2 => exact ⟨hv2, hms2⟩
      have hlen2 : (printKey k2).length + (printJson v2 lvl).length +
          (printMembersTail ms2 lvl).length + 1 < F := by
        simp only [printMembersTail, List.length_cons, List.length_append] at hfl
        omega
      simp only [printMembersTail, List.cons_append, List.append_assoc]
      rw [skipWs_not_ws ',' _ (by decide)]
      dsimp only
      rw [if_pos (rfl : (',' : Char) = ',')]
      rw [show '\x0a' :: (jIndent lvl ++ (printKey k2 ++ (printJson v2 lvl ++
            (printMembersTail ms2 lvl ++ '\x0a' :: (tail ++ '\x7d' :: rest))))) =
          ('\x0a' :: jIndent lvl) ++ (printKey k2 ++ (printJson v2 lvl ++
            (printMembersTail ms2 lvl ++ '\x0a' :: (tail ++ '\x7d' :: rest)))) from rfl,
        parseMembers_ws_pre F _ _ (nl_indent_ws lvl)]
      rw [rt_members k2 v2 ms2 lvl F tail rest hv2 hms2 hlen2 htail]
      rfl
termination_by sizeOf v + sizeOf ms + 1

end

/-! ## C9 part E: every scanner result is well-formed -/

theorem parse_wf : ∀ fuel : Nat,
    (∀ cs v r, parseValue fuel cs = some (v, r) → WfJ v) ∧
    (∀ cs xs r, parseElems fuel cs = some (xs, r) → WfE xs) ∧
    (∀ cs ms r, parseMembers fuel cs = some (ms, r) → WfM ms) := by
  intro fuel
  induction fuel with
  | zero =>
    exact ⟨fun cs v r h => by simp [parseValue] at h,
      fun cs xs r h => by simp [parseElems] at h,
      fun cs ms r h => by simp [parseMembers] at h⟩
  | succ f ih =>
    obtain ⟨ihv, ihe, ihm⟩ := ih
    refine ⟨?_, ?_, ?_⟩
    · intro cs v r h
      simp only [parseValue] at h
      cases hsk : skipWs cs with
      | nil => rw [hsk] at h; exact absurd h (by simp)
      | cons c rest =>
        rw [hsk] at h
        dsimp only at h
        split_ifs at h with h1 h2 h3 h4 h5 h6 h7
        · rcases Option.map_eq_some'.mp h with ⟨r2, _, hvr⟩
          injection hvr with hv hr
          subst hv
          exact WfJ.null
        · rcases Option.map_eq_some'.mp h with ⟨r2, _, hvr⟩
          injection hvr with hv hr
          subst hv
          exact WfJ.bool true
        · rcases Option.map_eq_some'.mp h with ⟨r2, _, hvr⟩
          injection hvr with hv hr
          subst hv
          exact WfJ.bool false
        · rcases Option.map_eq_some'.mp h with ⟨p, hp, hvr⟩
          injection hvr with hv hr
          subst hv
          exact WfJ.str _
        · cases hsk2 : skipWs rest with
          | nil => rw [hsk2] at h; exact absurd h (by simp)
          | cons d ds =>
            rw [hsk2] at h
            dsimp only at h
            by_cases hd : d = ']'
            · rw [if_pos hd] at h
              injection h with hvr
              injection hvr with hv hr
              subst hv
              exact WfJ.arr _ WfE.nil
            · rw [if_neg hd] at h
              rcases Option.map_eq_some'.mp h with ⟨p, hp, hvr⟩
              injection hvr with hv hr
              subst hv
              exact WfJ.arr _ (ihe _ _ _ (by rw [hp]))
        · cases hsk2 : skipWs rest with
          | nil => rw [hsk2] at h; exact absurd h (by simp)
          | cons d ds =>
            rw [hsk2] at h
            dsimp only at h
            by_cases hd : d = '\x7d'
            · rw [if_pos hd] at h
              injection h with hvr
              injection hvr with hv hr
              subst hv
              exact WfJ.obj _ (by simp [jmFold, jmFoldInto, jmKeys]) WfM.nil
            · rw [if_neg hd] at h
              rcases Option.map_eq_some'.mp h with ⟨p, hp, hvr⟩
              injection hvr with hv hr
              subst hv
              have hwfm := ihm _ _ _ (show parseMembers f (d :: ds) = some (p.1, p.2) by
                rw [hp])
              exact WfJ.obj _ (jmFold_wf p.1 hwfm).2 (jmFold_wf p.1 hwfm).1
        · rcases Option.map_eq_some'.mp h with ⟨p, hp, hvr⟩
          injection hvr with hv hr
          subst hv
          exact WfJ.num _
    · intro cs xs r h
      simp only [parseElems] at h
      cases hpv : parseValue f cs with
      | none => rw [hpv] at h; exact absurd h (by simp)
      | some p =>
        rw [hpv] at h
        obtain ⟨x, r1⟩ := p
        dsimp only at h
        cases hsk : skipWs r1 with
        | nil => rw [hsk] at h; exact absurd h (by simp)
        | cons d ds =>
          rw [hsk] at h
          dsimp only at h
          split_ifs at h with h1 h2
          · rcases Option.map_eq_some'.mp h with ⟨p2, hp2, hvr⟩
            injection hvr with hx hr
            subst hx
            exact WfE.cons _ _ (ihv _ _ _ hpv) (ihe _ _ _ (by rw [hp2]))
          · injection h with hvr
            injection hvr with hx hr
            subst hx
            exact WfE.cons _ _ (ihv _ _ _ hpv) WfE.nil
    · intro cs ms r h
      simp only [parseMembers] at h
      cases hsk : skipWs cs with
      | nil => rw [hsk] at h; exact absurd h (by simp)
      | cons c rest =>
        rw [hsk] at h
        dsimp only at h
        by_cases h1 : c = '"'
        · rw [if_pos h1] at h
          cases hps : parseStringBody rest with
          | none => rw [hps] at h; exact absurd h (by simp)
          | some pk =>
            rw [hps] at h
            obtain ⟨k, cs2⟩ := pk
            dsimp only at h
            cases hsk2 : skipWs cs2 with
            | nil => rw [hsk2] at h; exact absurd h (by simp)
            | cons d ds =>
              rw [hsk2] at h
              dsimp only at h
              by_cases h2 : d = ':'
              · rw [if_pos h2] at h
                cases hpv : parseValue f ds with
                | none => rw [hpv] at h; exact absurd h (by simp)
                | some pv =>
                  rw [hpv] at h
                  obtain ⟨v2, cs4⟩ := pv
                  dsimp only at h
                  cases hsk3 : skipWs cs4 with
                  | nil => rw [hsk3] at h; exact absurd h (by simp)
                  | cons e es =>
                    rw [hsk3] at h
                    dsimp only at h
                    split_ifs at h with h3 h4
                    · rcases Option.map_eq_some'.mp h with ⟨p2, hp2, hvr⟩
                      injection hvr with hm hr
                      subst hm
                      exact WfM.cons _ _ _ (ihv _ _ _ hpv) (ihm _ _ _ (by rw [hp2]))
                    · injection h with hvr
                      injection hvr with hm hr
                      subst hm
                      exact WfM.cons _ _ _ (ihv _ _ _ hpv) WfM.nil
              · rw [if_neg h2] at h
                exact absurd h (by simp)
        · rw [if_neg h1] at h
          exact absurd h (by simp)

/-- `json.loads` only produces well-formed values. -/
theorem json_loads_wf (t : String) (v : Json) (h : json_loads t = some v) : WfJ v := by
  unfold json_loads at h
  cases hp : parseValue (t.data.length + 1) t.data with
  | none => rw [hp] at h; exact absurd h (by simp)
  | some p =>
    rw [hp] at h
    obtain ⟨v2, rest⟩ := p
    dsimp only at h
    split_ifs at h
    · injection h with hv
      subst hv
      exact (parse_wf _).1 _ _ _ hp

/-- `json.loads` is a retraction of `json.dumps` on well-formed values. -/
theorem json_loads_dumps (v : Json) (hw : WfJ v) : json_loads (json_dumps v) = some v := by
  unfold json_loads json_dumps
  rw [show (String.mk (printJson v 0)).data = printJson v 0 from rfl]
  have h1 : parseValue ((printJson v 0).length + 1) (printJson v 0 ++ []) = some (v, []) :=
    rt_val v 0 _ [] hw (by simp) trivial
  rw [List.append_nil] at h1
  rw [h1]
  rfl

/-! ## C9 — normalization is idempotent -/

/-- C9: normalization is idempotent: if `parse_body_text` succeeds on a body
under the `application/json` content type, then running it again on its
output succeeds and returns that output unchanged (pretty-printed JSON
re-parses to the same value and re-prints identically). -/
theorem claim9_normalize_idempotent (t s : String)
    (h : parse_body_text t (some "application/json") = Except.ok s) :
    parse_body_text s (some "application/json") = Except.ok s := by
  rw [show parse_body_text t (some "application/json") =
      (match json_loads t with
        | some v => Except.ok (json_dumps v)
        | none => Except.error ConvertError.malformedBody) from rfl] at h
  rw [show parse_body_text s (some "application/json") =
      (match json_loads s with
        | some v => Except.ok (json_dumps v)
        | none => Except.error ConvertError.malformedBody) from rfl]
  cases hl : json_loads t with
  | none => rw [hl] at h; exact absurd h (by simp)
  | some v =>
    rw [hl] at h
    dsimp only at h
    injection h with hs
    subst hs
    rw [json_loads_dumps v (json_loads_wf t v hl)]

/-- Witness: the JSON body `null` normalizes to itself, and the theorem applies
to it. -/
theorem claim9_witness :
    parse_body_text "null" (some "application/json") = Except.ok "null" :=
  claim9_normalize_idempotent "null" "null" (by rfl)
